import Mathlib

set_option maxHeartbeats 1000000
set_option maxRecDepth 10000

/-!
Shallow embedding of the gherkin-mocha-parser repository: the line-oriented
feature parser (`parseFeature`), the variable-extraction heuristic
(`extractVariablesFromStep`) and the Mocha test generator
(`generateMochaTests`), together with the document model classes.

JavaScript `Record<string, T>` objects are modelled as insertion-ordered
association lists `List (String × T)`; property assignment (`obj[k] = v`)
is `jsAssign`, which updates the value in place when the key exists and
appends a fresh entry otherwise, exactly matching JS object key ordering.

Mutable aliasing in the source (`ctx.currentStepCollector` pointing at
`bg.steps` or `scenario.steps`, `ctx.currentScenario` pointing at the most
recently pushed scenario) is modelled by an explicit `Target` tag plus the
invariant — true of the source, where scenarios are only ever appended and
`currentScenario` is reassigned exactly when a scenario is pushed — that
the active scenario is the last element of `feature.scenarios`.
-/

/-! ## String utilities mirroring the JavaScript operations used by the source -/

/-- Whitespace test matching the characters relevant to JS `\s` and `trim`
for the ASCII inputs this parser deals in. -/
def wsChar (c : Char) : Bool :=
  c = ' ' || c = '\t' || c = '\n' || c = '\r' || c = '\x0b' || c = '\x0c'

/-- Boolean prefix test on character lists (first argument is the pattern). -/
def startsWithL : List Char → List Char → Bool
  | [], _ => true
  | _ :: _, [] => false
  | p :: ps, c :: cs => p = c && startsWithL ps cs

/-- JS `line.startsWith(p)`. -/
def lineStartsWith (s p : String) : Bool := startsWithL p.data s.data

/-- JS `String.prototype.trim` on a character list. -/
def trimL (l : List Char) : List Char :=
  ((l.dropWhile wsChar).reverse.dropWhile wsChar).reverse

/-- JS `s.trim()`. -/
def trimS (s : String) : String := ⟨trimL s.data⟩

/-- JS `s.split(sep)` for a single-character separator: boundary separators
produce empty fields, `"|a|"` splits to `["", "a", ""]`. -/
def splitCharL (sep : Char) : List Char → List (List Char)
  | [] => [[]]
  | c :: rest =>
    if c = sep then [] :: splitCharL sep rest
    else
      match splitCharL sep rest with
      | [] => [[c]]
      | t :: ts => (c :: t) :: ts

/-- Worker for `splitWS`: `some acc` holds the current field reversed,
`none` means the scanner stands inside a separator (whitespace) run. -/
def splitWSAux : Option (List Char) → List Char → List String
  | Option.none, [] => [""]
  | some acc, [] => [⟨acc.reverse⟩]
  | Option.none, c :: rest =>
    if wsChar c then splitWSAux Option.none rest else splitWSAux (some [c]) rest
  | some acc, c :: rest =>
    if wsChar c then ⟨acc.reverse⟩ :: splitWSAux Option.none rest
    else splitWSAux (some (c :: acc)) rest

/-- JS `s.split(/\s+/)`: fields separated by maximal whitespace runs; a
leading (resp. trailing) run contributes a leading (resp. trailing) empty
field, as the JS regex split does. -/
def splitWS (s : String) : List String := splitWSAux (some []) s.data

/-- Decimal digit test (JS `\d`). -/
def isDigitC (c : Char) : Bool := '0' ≤ c && c ≤ '9'

/-- JS word character (`\w`): letters, digits, underscore. -/
def isWordChar (c : Char) : Bool :=
  isDigitC c || ('a' ≤ c && c ≤ 'z') || ('A' ≤ c && c ≤ 'Z') || c = '_'

/-- Decimal digits of a natural number, most significant first. The fuel
argument only bounds the recursion depth; any `fuel > n` yields the
digits of `n` (one division by ten per step). -/
def natDigitsAux : Nat → Nat → List Char
  | 0, _ => []
  | fuel + 1, n =>
    if n < 10 then [Char.ofNat (48 + n)]
    else natDigitsAux fuel (n / 10) ++ [Char.ofNat (48 + n % 10)]

/-- Decimal rendering of a natural number (JS template `${n}` for the
non-negative indices used by the extraction heuristic). -/
def natToStr (n : Nat) : String := ⟨natDigitsAux (n + 1) n⟩

/-- Decimal rendering of an integer. -/
def intStr (i : Int) : String :=
  if i < 0 then "-" ++ natToStr i.natAbs else natToStr i.natAbs

/-! ## Document model (src/src/models) -/

/-- Model class `BackgroundModel`: `steps: string[]`. -/
structure BackgroundModel where
  steps : List String
deriving DecidableEq

/-- Model class `ScenarioModel`: `name`, `steps`, `tags`. -/
structure ScenarioModel where
  name : String
  steps : List String
  tags : List String
deriving DecidableEq

/-- Model class `ScenarioOutlineModel`: `name`, `steps`, `examples`, `tags`.
An example row `Record<string, string>` is an insertion-ordered association
list. -/
structure ScenarioOutlineModel where
  name : String
  steps : List String
  tags : List String
  examples : List (List (String × String))
deriving DecidableEq

/-- The source stores `(ScenarioModel | ScenarioOutlineModel)[]` and
distinguishes them with `instanceof`; modelled as a tagged union. -/
inductive ScenarioEntry
  | scenario (s : ScenarioModel)
  | outline (o : ScenarioOutlineModel)
deriving DecidableEq

/-- Model class `FeatureModel`: `name`, `description`, optional
`background`, `scenarios`. -/
structure FeatureModel where
  name : String
  description : List String
  background : Option BackgroundModel
  scenarios : List ScenarioEntry
deriving DecidableEq

/-! ## JS object (Record) operations -/

/-- JS property assignment `obj[k] = v` on an insertion-ordered record:
overwrite in place when the key exists, append otherwise. -/
def jsAssign {α : Type} : List (String × α) → String → α → List (String × α)
  | [], k, v => [(k, v)]
  | (k', v') :: r, k, v =>
    if k' = k then (k', v) :: r else (k', v') :: jsAssign r k v

/-- JS property read `obj[k]` on an insertion-ordered record. -/
def jsLookup {α : Type} (k : String) : List (String × α) → Option α
  | [] => Option.none
  | (k', v) :: r => if k' = k then some v else jsLookup k r

/-! ## Parser (src: parseFeature and helpers) -/

/-- `const STEP_KEYWORDS = ['Given', 'When', 'Then', 'And', 'But']`. -/
def STEP_KEYWORDS : List String := ["Given", "When", "Then", "And", "But"]

/-- Source `isStepLine`: raw prefix check against the step keywords. -/
def isStepLine (line : String) : Bool :=
  STEP_KEYWORDS.any (fun k => lineStartsWith line k)

/-- Source `parseTableRow`: `line.split('|').slice(1, -1).map(trim)` —
split on `|`, drop the first and last fields, trim each cell. -/
def parseTableRow (line : String) : List String :=
  (((splitCharL '|' line.data).drop 1).dropLast).map (fun cell => ⟨trimL cell⟩)

/-- Source `ParseMode = 'none' | 'background' | 'scenario' | 'outline' | 'rule'`. -/
inductive ParseMode
  | none | background | scenario | outline | rule
deriving DecidableEq

/-- Where `ctx.currentStepCollector` points: the initial detached array,
the background's steps, or the last scenario's steps. -/
inductive Target
  | detached | background | scenario
deriving DecidableEq

/-- Source parse `Context`. `detached` is the initial step collector, an
array never reachable from the feature. -/
structure Ctx where
  feature : FeatureModel
  detached : List String
  target : Target
  mode : ParseMode
  headers : List String
  pendingTags : List String
  inDocString : Bool
deriving DecidableEq

/-- Apply `f` to the last element of a list, when there is one. -/
def modifyLast {α : Type} (f : α → α) : List α → List α
  | [] => []
  | [a] => [f a]
  | a :: b :: rest => a :: modifyLast f (b :: rest)

/-- Append one step to a scenario or outline. -/
def addStep (s : String) : ScenarioEntry → ScenarioEntry
  | .scenario sc => .scenario {sc with steps := sc.steps ++ [s]}
  | .outline o => .outline {o with steps := o.steps ++ [s]}

/-- Append one example row to an outline (no-op on a plain scenario). -/
def pushExample (row : List (String × String)) : ScenarioEntry → ScenarioEntry
  | .scenario sc => .scenario sc
  | .outline o => .outline {o with examples := o.examples ++ [row]}

/-- Examples of an entry (a plain scenario has none). -/
def examplesOf : ScenarioEntry → List (List (String × String))
  | .scenario _ => []
  | .outline o => o.examples

/-- Tags of an entry. -/
def tagsOfE : ScenarioEntry → List String
  | .scenario sc => sc.tags
  | .outline o => o.tags

/-- Steps of an entry. -/
def stepsOfE : ScenarioEntry → List String
  | .scenario sc => sc.steps
  | .outline o => o.steps

/-- Source `ctx.currentStepCollector.push(line)`. -/
def pushStep (ctx : Ctx) (s : String) : Ctx :=
  match ctx.target with
  | .detached => {ctx with detached := ctx.detached ++ [s]}
  | .background =>
    {ctx with feature := {ctx.feature with
      background := ctx.feature.background.map
        (fun bg => {bg with steps := bg.steps ++ [s]})}}
  | .scenario =>
    {ctx with feature := {ctx.feature with
      scenarios := modifyLast (addStep s) ctx.feature.scenarios}}

/-- Worker for `zipRow`, folding `row[header] = cells[i] || ''` over
the headers in declared order. -/
def zipRowAux (cells : List String) : Nat → List String → List (String × String) → List (String × String)
  | _, [], row => row
  | i, h :: hs, row => zipRowAux cells (i + 1) hs (jsAssign row h (cells.getD i ""))

/-- Source examples zip: `headers.forEach((header, i) => row[header] = cells[i] || '')`
(a missing or empty cell contributes the empty string either way). -/
def zipRow (headers cells : List String) : List (String × String) :=
  zipRowAux cells 0 headers []

/-- Source `handlers` dispatch: the first prefix of
`Feature:`, `Background:`, `Scenario Outline:`, `Scenario:`, `Examples:`,
`Rule:` (in the object's insertion order) that matches fires its handler;
`none` when no prefix matches. -/
def runHandler (ctx : Ctx) (line : String) : Option Ctx :=
  if lineStartsWith line "Feature:" then
    some {ctx with feature := {ctx.feature with name := ⟨trimL (line.data.drop 8)⟩}}
  else if lineStartsWith line "Background:" then
    some {ctx with
      feature := {ctx.feature with background := some {steps := []}},
      target := Target.background, mode := ParseMode.background}
  else if lineStartsWith line "Scenario Outline:" then
    some {ctx with
      feature := {ctx.feature with scenarios := ctx.feature.scenarios ++
        [ScenarioEntry.outline
          {name := ⟨trimL (line.data.drop 17)⟩, steps := [],
           tags := ctx.pendingTags, examples := []}]},
      pendingTags := [], target := Target.scenario, mode := ParseMode.outline}
  else if lineStartsWith line "Scenario:" then
    some {ctx with
      feature := {ctx.feature with scenarios := ctx.feature.scenarios ++
        [ScenarioEntry.scenario
          {name := ⟨trimL (line.data.drop 9)⟩, steps := [], tags := ctx.pendingTags}]},
      pendingTags := [], target := Target.scenario, mode := ParseMode.scenario}
  else if lineStartsWith line "Examples:" then
    some {ctx with headers := []}
  else if lineStartsWith line "Rule:" then
    some {ctx with
      feature := {ctx.feature with description :=
        ctx.feature.description ++ ["Rule: " ++ (⟨trimL (line.data.drop 5)⟩ : String)]},
      mode := ParseMode.rule}
  else Option.none

/-- One iteration of the source's dispatch loop over a (pre-trimmed) line:
doc-string fences first, then in-doc-string capture, tag lines, keyword
handlers, table rows, step lines, free description text. -/
def processLine (ctx : Ctx) (line : String) : Ctx :=
  if lineStartsWith line "\"\"\"" then
    pushStep {ctx with inDocString := !ctx.inDocString} line
  else if ctx.inDocString then
    pushStep ctx line
  else if lineStartsWith line "@" then
    {ctx with pendingTags := (splitWS line).map trimS}
  else
    match runHandler ctx line with
    | some ctx' => ctx'
    | Option.none =>
      if lineStartsWith line "|" then
        if ctx.headers = [] then {ctx with headers := parseTableRow line}
        else
          match ctx.feature.scenarios.getLast? with
          | some (ScenarioEntry.outline _) =>
            {ctx with feature := {ctx.feature with
              scenarios := modifyLast
                (pushExample (zipRow ctx.headers (parseTableRow line)))
                ctx.feature.scenarios}}
          | _ => ctx
      else if isStepLine line then pushStep ctx line
      else if line ≠ "" ∧ ctx.mode = ParseMode.none then
        {ctx with feature := {ctx.feature with
          description := ctx.feature.description ++ [line]}}
      else ctx

/-- The freshly constructed parse context. -/
def initCtx : Ctx :=
  {feature := {name := "", description := [], background := Option.none, scenarios := []},
   detached := [], target := Target.detached, mode := ParseMode.none,
   headers := [], pendingTags := [], inDocString := false}

/-- The parser's forward pass over pre-trimmed lines. -/
def parseLines (lines : List String) : Ctx := lines.foldl processLine initCtx

/-- Source `parseFeature`, on the pre-trimmed line sequence (the
`fs.readFileSync` wrapper is external I/O; splitting and trimming are kept
in `parseFeature` below). -/
def parseFeatureLines (lines : List String) : FeatureModel := (parseLines lines).feature

/-- Source `parseFeature` on a whole text: split on newline, trim each
line, run the dispatch loop. -/
def parseFeature (content : String) : FeatureModel :=
  parseFeatureLines ((splitCharL '\n' content.data).map (fun l => ⟨trimL l⟩))

/-! ## Variable extraction heuristic (src: extractVariablesFromStep) -/

/-- Values held in the extraction record `Record<string, any>`: quoted
strings and numbers. Numbers are modelled in `ℚ`; this is exact for the
decimal literals the heuristic extracts in this development (JS doubles
represent `42` and `3.5` exactly). -/
inductive JValue
  | str (s : String)
  | num (q : ℚ)
deriving DecidableEq

/-- Scanner for `step.match(/"([^"]+)"/g)`: leftmost, non-overlapping
matches of a quote, one or more non-quote characters, and a quote. The
state is `none` outside a candidate match and `some acc` (reversed
accumulated content) after an opening quote. A quote immediately followed
by another quote cannot match (the `+` requires content), and the engine
then retries with the second quote as opener — exactly what advancing the
start position by one does. -/
def qscan : Option (List Char) → List Char → List (List Char)
  | _, [] => []
  | Option.none, c :: rest =>
    if c = '"' then qscan (some []) rest else qscan Option.none rest
  | some acc, c :: rest =>
    if c = '"' then
      if acc = [] then qscan (some []) rest
      else ('"' :: (acc.reverse ++ ['"'])) :: qscan Option.none rest
    else qscan (some (c :: acc)) rest

/-- Word-boundary (`\b`) test against the next character (end of input is
a boundary after a word character). -/
def boundaryNext : List Char → Bool
  | [] => true
  | c :: _ => !isWordChar c

/-- Word-boundary (`\b`) test against the previous character (start of
input is a boundary before a word character). -/
def boundaryBefore : Option Char → Bool
  | Option.none => true
  | some c => !isWordChar c

/-- Scanner for `step.match(/\b\d+(\.\d+)?\b/g)`: a match starts at a
digit preceded by a word boundary, takes the maximal digit run, then an
optional dot plus maximal digit run, and requires a word boundary after;
when the trailing boundary fails after the fractional part the engine
backtracks to the integer part alone (whose trailing boundary at the dot
always holds). A shorter digit run can never help (the next character
would be a digit, a word character), so only the full-run/no-fraction
alternatives occur, and a failed start position advances by one character.
`prev` carries the previously consumed character; after a successful match
it is a digit, represented by `'0'` (only its word-character status is
ever read). The fuel argument only bounds the recursion depth: every
recursive call consumes at least one character, so any `fuel > length`
realizes the scan in full. -/
def numScanF : Nat → Option Char → List Char → List (List Char)
  | 0, _, _ => []
  | _, _, [] => []
  | fuel + 1, prev, c :: rest =>
    if isDigitC c && boundaryBefore prev then
      match rest.dropWhile isDigitC with
      | '.' :: r2 =>
        if (r2.takeWhile isDigitC) ≠ [] && boundaryNext (r2.dropWhile isDigitC) then
          (c :: (rest.takeWhile isDigitC ++ '.' :: r2.takeWhile isDigitC))
            :: numScanF fuel (some '0') (r2.dropWhile isDigitC)
        else
          (c :: rest.takeWhile isDigitC) :: numScanF fuel (some '0') ('.' :: r2)
      | r1 =>
        if boundaryNext r1 then (c :: rest.takeWhile isDigitC) :: numScanF fuel (some '0') r1
        else numScanF fuel (some c) rest
    else numScanF fuel (some c) rest

/-- The `\b\d+(\.\d+)?\b` scan with sufficient fuel. -/
def numScan (prev : Option Char) (l : List Char) : List (List Char) :=
  numScanF (l.length + 1) prev l

/-- Numeric value of the digit run of a matched numeral. -/
def digitsVal (l : List Char) : Nat := l.foldl (fun a c => 10 * a + (c.toNat - 48)) 0

/-- JS `Number(num)` on a matched numeral `d+` or `d+.d+`, in `ℚ`:
the integer digits plus the fraction digits over the matching power of
ten (built with `mkRat` so that concrete values compute). -/
def numValue (t : List Char) : ℚ :=
  match t.dropWhile isDigitC with
  | '.' :: fr =>
    mkRat (digitsVal (t.takeWhile isDigitC) * 10 ^ fr.length + digitsVal fr) (10 ^ fr.length)
  | _ => mkRat (digitsVal (t.takeWhile isDigitC)) 1

/-- Sequential `variables[base + (index + 1)] = value` assignments of the
source's two `forEach` loops. -/
def assignSeq (base : String) : Nat → List JValue → List (String × JValue) → List (String × JValue)
  | _, [], r => r
  | i, v :: vs, r => assignSeq base (i + 1) vs (jsAssign r (base ++ natToStr (i + 1)) v)

/-- Source `extractVariablesFromStep`: quoted matches become
`key1, key2, …` (quotes stripped via `replace(/"/g, '')`), numeric matches
become `num1, num2, …` (converted with `Number`). -/
def extractVariablesFromStep (step : String) : List (String × JValue) :=
  assignSeq "num" 0
    ((numScan Option.none step.data).map (fun t => JValue.num (numValue t)))
    (assignSeq "key" 0
      ((qscan Option.none step.data).map
        (fun m => JValue.str ⟨m.filter (fun c => c ≠ '"')⟩)) [])

/-! ## Generator (src: generateMochaTests) -/

/-- `Object.assign({}, ...maps)`: copy every source's entries, in order,
into a fresh record; later sources override earlier ones per key. -/
def mergeAll (maps : List (List (String × JValue))) : List (String × JValue) :=
  maps.foldl (fun acc m => m.foldl (fun a p => jsAssign a p.1 p.2) acc) []

/-- JSON string escaping for the characters that occur in this
development (quote, backslash, common control characters). -/
def jsonEscC (c : Char) : List Char :=
  if c = '"' then ['\\', '"']
  else if c = '\\' then ['\\', '\\']
  else if c = '\n' then ['\\', 'n']
  else if c = '\t' then ['\\', 't']
  else if c = '\r' then ['\\', 'r']
  else [c]

/-- Escape a whole string for a JSON literal. -/
def jsonEscape (s : String) : String := ⟨s.data.foldr (fun c acc => jsonEscC c ++ acc) []⟩

/-- Decimal rendering of a rational, as JS number stringification renders
the exactly-representable decimals produced by `extractVariablesFromStep`
(integer part, dot, minimal fraction digits; integers have no dot). The
fraction branch searches for the least scale making the value integral;
values whose denominator divides no power of ten up to `10 ^ 39` fall back
to a fraction rendering (unreachable for decimal-parsed values). -/
def qToString (q : ℚ) : String :=
  if q.den = 1 then intStr q.num
  else
    match (List.range 40).find? (fun k => 10 ^ k % q.den = 0) with
    | some k =>
      let n := q.num.natAbs * 10 ^ k / q.den
      (if q.num < 0 then "-" else "")
        ++ natToStr (n / 10 ^ k) ++ "."
        ++ (⟨List.replicate (k - (natToStr (n % 10 ^ k)).length) '0'⟩ : String)
        ++ natToStr (n % 10 ^ k)
    | Option.none => intStr q.num ++ "/" ++ natToStr q.den

/-- JSON literal for one extraction value. -/
def jvalStr : JValue → String
  | .str s => "\"" ++ jsonEscape s ++ "\""
  | .num q => qToString q

/-- `JSON.stringify(record, null, 6)` for the flat records this generator
serializes: `{}` when empty, otherwise one entry per line indented six
spaces. -/
def jsonStringifyJ (r : List (String × JValue)) : String :=
  if r = [] then "\x7b\x7d"
  else
    "\x7b\n" ++ String.intercalate ",\n"
      (r.map (fun p => "      \"" ++ jsonEscape p.1 ++ "\": " ++ jvalStr p.2))
    ++ "\n\x7d"

/-- `JSON.stringify(exampleRow, null, 6)`. -/
def jsonStringifyRow (row : List (String × String)) : String :=
  jsonStringifyJ (row.map (fun p => (p.1, JValue.str p.2)))

/-- A step emitted as a comment line inside a test body. -/
def commentLine (s : String) : String := "    // " ++ s

/-- The generator's fixed preamble plus the feature group wrapper opener. -/
def preludeLines (name : String) : List String :=
  ["const \x7b mocha \x7d = require(\x27mocha\x27);",
   "const \x7b expect \x7d = require(\x27chai\x27);",
   "",
   "describe(\x27Feature: " ++ name ++ "\x27, function () \x7b"]

/-- The background test case block: emitted only when a background with at
least one step exists; titled with the first background step's literal
text; all steps as comments; `data` is the shallow merge of the steps'
extracted variables. -/
def backgroundLines (f : FeatureModel) : List String :=
  match f.background with
  | Option.none => []
  | some bg =>
    match bg.steps with
    | [] => []
    | s0 :: rest =>
      ["  it(\x27Background: " ++ s0 ++ "\x27, async () => \x7b"]
      ++ (s0 :: rest).map commentLine
      ++ ["",
          "    const data = "
            ++ jsonStringifyJ (mergeAll ((s0 :: rest).map extractVariablesFromStep)) ++ ";",
          "  \x7d);",
          ""]

/-- One scenario or outline test case block. -/
def scenarioBlock : ScenarioEntry → List String
  | .scenario sc =>
    ["  it(\x27" ++ sc.name ++ "\x27, async () => \x7b"]
    ++ sc.steps.map commentLine
    ++ [""]
    ++ ["    const data = "
          ++ jsonStringifyJ (mergeAll (sc.steps.map extractVariablesFromStep)) ++ ";"]
    ++ ["  \x7d);", ""]
  | .outline o =>
    ["  it(\x27Scenario Outline: " ++ o.name ++ "\x27, async () => \x7b"]
    ++ o.steps.map commentLine
    ++ [""]
    ++ ["    const data = ["]
    ++ o.examples.map (fun ex => "      " ++ jsonStringifyRow ex ++ ",")
    ++ ["    ];"]
    ++ ["  \x7d);", ""]

/-- Source `generateMochaTests` as its ordered line sequence. -/
def mochaLines (f : FeatureModel) : List String :=
  preludeLines f.name ++ backgroundLines f
  ++ (f.scenarios.map scenarioBlock).flatten
  ++ ["\x7d);"]

/-- Source `generateMochaTests`: the lines joined with newlines. -/
def generateMochaTests (f : FeatureModel) : String :=
  String.intercalate "\n" (mochaLines f)

/-! ## Derived notions used by the verification statements -/

/-- The sequence of `(base + (i+1), value)` pairs that the source's
`forEach` assignment loop produces when every generated key is fresh. -/
def seqPairs (base : String) : Nat → List JValue → List (String × JValue)
  | _, [] => []
  | i, v :: vs => (base ++ natToStr (i + 1), v) :: seqPairs base (i + 1) vs

/-- First-occurrence key order: the keys a JS object built by assigning
`hs` in order on top of existing keys `seen` ends up with (new keys in
first-occurrence order after the existing ones). -/
def newKeysFrom (seen : List String) : List String → List String
  | [] => seen
  | h :: hs => newKeysFrom (if h ∈ seen then seen else seen ++ [h]) hs

/-- Index of the last occurrence of `k` in a list of keys. -/
def lastPos (k : String) : List String → Option Nat
  | [] => Option.none
  | h :: hs =>
    match lastPos k hs with
    | some j => some (j + 1)
    | Option.none => if h = k then some 0 else Option.none

/-- The value the last map containing `k` gives it (merge semantics of
`Object.assign` over maps with distinct keys each). -/
def lastHit (k : String) (maps : List (List (String × JValue))) : Option JValue :=
  maps.foldl
    (fun acc m =>
      match jsLookup k m with
      | some v => some v
      | Option.none => acc)
    Option.none

/-- Contents of the array `ctx.currentStepCollector` currently points at. -/
def collectorContent (ctx : Ctx) : List String :=
  match ctx.target with
  | Target.detached => ctx.detached
  | Target.background =>
    match ctx.feature.background with
    | some bg => bg.steps
    | Option.none => []
  | Target.scenario =>
    match ctx.feature.scenarios.getLast? with
    | some e => stepsOfE e
    | Option.none => []

/-- Contexts whose collector target actually points at an existing array —
an invariant of every context the parser reaches, since the target is
only redirected by the `Background:` / `Scenario:` / `Scenario Outline:`
handlers right after they create the array. -/
def CtxWF (ctx : Ctx) : Prop :=
  (ctx.target = Target.background → ctx.feature.background.isSome) ∧
  (ctx.target = Target.scenario → ctx.feature.scenarios ≠ [])

/-- The context with the detached collector emptied: two contexts with
the same `clearDetached` agree on everything the feature can observe. -/
def clearDetached (ctx : Ctx) : Ctx := {ctx with detached := []}

/-! ## Prefix and dispatch lemmas -/

theorem startsWithL_iff (p s : List Char) :
    startsWithL p s = true ↔ ∃ t, s = p ++ t := by
  induction p generalizing s with
  | nil => simp [startsWithL]
  | cons a ps ih =>
    cases s with
    | nil => simp [startsWithL]
    | cons c cs =>
      simp only [startsWithL, Bool.and_eq_true, decide_eq_true_eq, ih, List.cons_append]
      constructor
      · rintro ⟨rfl, t, rfl⟩
        exact ⟨t, rfl⟩
      · rintro ⟨t, ht⟩
        injection ht with h1 h2
        exact ⟨h1.symm, t, h2⟩

theorem lineStartsWith_iff (s p : String) :
    lineStartsWith s p = true ↔ ∃ t, s.data = p.data ++ t :=
  startsWithL_iff p.data s.data

theorem data_docstring : "\"\"\"".data = ['"', '"', '"'] := rfl

theorem data_at : "@".data = ['@'] := rfl

theorem data_feature : "Feature:".data = ['F', 'e', 'a', 't', 'u', 'r', 'e', ':'] := rfl

theorem data_background :
    "Background:".data = ['B', 'a', 'c', 'k', 'g', 'r', 'o', 'u', 'n', 'd', ':'] := rfl

theorem data_outline :
    "Scenario Outline:".data =
      ['S', 'c', 'e', 'n', 'a', 'r', 'i', 'o', ' ', 'O', 'u', 't', 'l', 'i', 'n', 'e', ':'] := rfl

theorem data_scenario :
    "Scenario:".data = ['S', 'c', 'e', 'n', 'a', 'r', 'i', 'o', ':'] := rfl

theorem data_examples :
    "Examples:".data = ['E', 'x', 'a', 'm', 'p', 'l', 'e', 's', ':'] := rfl

theorem data_rule : "Rule:".data = ['R', 'u', 'l', 'e', ':'] := rfl

theorem data_pipe : "|".data = ['|'] := rfl

theorem data_given : "Given".data = ['G', 'i', 'v', 'e', 'n'] := rfl

theorem data_when : "When".data = ['W', 'h', 'e', 'n'] := rfl

theorem data_then : "Then".data = ['T', 'h', 'e', 'n'] := rfl

theorem data_and : "And".data = ['A', 'n', 'd'] := rfl

theorem data_but : "But".data = ['B', 'u', 't'] := rfl

/-- A tag line replaces the pending-tags buffer and changes nothing else. -/
theorem tag_step (ctx : Ctx) (line : String) (hdoc : ctx.inDocString = false)
    (htag : lineStartsWith line "@" = true) :
    processLine ctx line = {ctx with pendingTags := (splitWS line).map trimS} := by
  obtain ⟨t, ht⟩ := (lineStartsWith_iff line "@").mp htag
  rw [data_at] at ht
  have hq : lineStartsWith line "\"\"\"" = false := by
    simp [lineStartsWith, data_docstring, ht, startsWithL]
  simp [processLine, hq, hdoc, htag]

/-- A `Scenario:` line fires the scenario handler: the pending tags are
flushed into the new scenario and cleared. -/
theorem scenario_line_step (ctx : Ctx) (line : String) (hdoc : ctx.inDocString = false)
    (h : lineStartsWith line "Scenario:" = true) :
    processLine ctx line =
      {ctx with
        feature := {ctx.feature with scenarios := ctx.feature.scenarios ++
          [ScenarioEntry.scenario
            {name := ⟨trimL (line.data.drop 9)⟩, steps := [], tags := ctx.pendingTags}]},
        pendingTags := [], target := Target.scenario, mode := ParseMode.scenario} := by
  obtain ⟨t, ht⟩ := (lineStartsWith_iff line "Scenario:").mp h
  rw [data_scenario] at ht
  have hq : lineStartsWith line "\"\"\"" = false := by
    simp [lineStartsWith, data_docstring, ht, startsWithL]
  have hat : lineStartsWith line "@" = false := by
    simp [lineStartsWith, data_at, ht, startsWithL]
  have hF : lineStartsWith line "Feature:" = false := by
    simp [lineStartsWith, data_feature, ht, startsWithL]
  have hB : lineStartsWith line "Background:" = false := by
    simp [lineStartsWith, data_background, ht, startsWithL]
  have hSO : lineStartsWith line "Scenario Outline:" = false := by
    simp [lineStartsWith, data_outline, ht, startsWithL]
  simp [processLine, runHandler, hq, hdoc, hat, hF, hB, hSO, h]

/-- A `Scenario Outline:` line fires the outline handler: the pending tags
are flushed into the new outline and cleared. -/
theorem outline_line_step (ctx : Ctx) (line : String) (hdoc : ctx.inDocString = false)
    (h : lineStartsWith line "Scenario Outline:" = true) :
    processLine ctx line =
      {ctx with
        feature := {ctx.feature with scenarios := ctx.feature.scenarios ++
          [ScenarioEntry.outline
            {name := ⟨trimL (line.data.drop 17)⟩, steps := [],
             tags := ctx.pendingTags, examples := []}]},
        pendingTags := [], target := Target.scenario, mode := ParseMode.outline} := by
  obtain ⟨t, ht⟩ := (lineStartsWith_iff line "Scenario Outline:").mp h
  rw [data_outline] at ht
  have hq : lineStartsWith line "\"\"\"" = false := by
    simp [lineStartsWith, data_docstring, ht, startsWithL]
  have hat : lineStartsWith line "@" = false := by
    simp [lineStartsWith, data_at, ht, startsWithL]
  have hF : lineStartsWith line "Feature:" = false := by
    simp [lineStartsWith, data_feature, ht, startsWithL]
  have hB : lineStartsWith line "Background:" = false := by
    simp [lineStartsWith, data_background, ht, startsWithL]
  simp [processLine, runHandler, hq, hdoc, hat, hF, hB, h]

/-- A line whose first character differs from a pattern's first character
does not start with that pattern. -/
theorem notStarts_head {line : String} {c : Char} {t : List Char} (ht : line.data = c :: t)
    (p : String) (d : Char) (ds : List Char) (hd : p.data = d :: ds) (hne : ¬ c = d) :
    lineStartsWith line p = false := by
  cases hb : lineStartsWith line p with
  | false => rfl
  | true =>
    exfalso
    obtain ⟨u, hu⟩ := (lineStartsWith_iff line p).mp hb
    rw [ht, hd] at hu
    injection hu with e1 _
    exact hne e1

/-- A line whose first two characters differ from a pattern's first two
characters does not start with that pattern. -/
theorem notStarts_head2 {line : String} {c1 c2 : Char} {t : List Char}
    (ht : line.data = c1 :: c2 :: t) (p : String) (d1 d2 : Char) (ds : List Char)
    (hd : p.data = d1 :: d2 :: ds) (hne : ¬ (c1 = d1 ∧ c2 = d2)) :
    lineStartsWith line p = false := by
  cases hb : lineStartsWith line p with
  | false => rfl
  | true =>
    exfalso
    obtain ⟨u, hu⟩ := (lineStartsWith_iff line p).mp hb
    rw [ht, hd] at hu
    injection hu with e1 hu'
    injection hu' with e2 _
    exact hne ⟨e1, e2⟩

/-- A step-keyword line falls through every earlier dispatch case and is
pushed onto the current step collector. -/
theorem step_line_eq_pushStep (ctx : Ctx) (line : String) (hdoc : ctx.inDocString = false)
    (h : isStepLine line = true) :
    processLine ctx line = pushStep ctx line := by
  have h5 : lineStartsWith line "Given" = true ∨ lineStartsWith line "When" = true ∨
      lineStartsWith line "Then" = true ∨ lineStartsWith line "And" = true ∨
      lineStartsWith line "But" = true := by
    simpa [isStepLine, STEP_KEYWORDS] using h
  rcases h5 with h1 | h1 | h1 | h1 | h1
  all_goals
    obtain ⟨t, ht⟩ := (lineStartsWith_iff _ _).mp h1
  all_goals
    first
      | rw [data_given] at ht
      | rw [data_when] at ht
      | rw [data_then] at ht
      | rw [data_and] at ht
      | rw [data_but] at ht
  all_goals
    simp only [List.cons_append, List.nil_append] at ht
  all_goals
    have hq := notStarts_head ht "\"\"\"" '"' _ data_docstring (by decide)
    have hat := notStarts_head ht "@" '@' _ data_at (by decide)
    have hF := notStarts_head ht "Feature:" 'F' _ data_feature (by decide)
    have hB := notStarts_head2 ht "Background:" 'B' 'a' _ data_background (by decide)
    have hSO := notStarts_head ht "Scenario Outline:" 'S' _ data_outline (by decide)
    have hS := notStarts_head ht "Scenario:" 'S' _ data_scenario (by decide)
    have hE := notStarts_head ht "Examples:" 'E' _ data_examples (by decide)
    have hR := notStarts_head ht "Rule:" 'R' _ data_rule (by decide)
    have hP := notStarts_head ht "|" '|' _ data_pipe (by decide)
    have hrun : runHandler ctx line = Option.none := by
      simp [runHandler, hF, hB, hSO, hS, hE, hR]
    simp [processLine, hq, hdoc, hat, hrun, hP, h]

/-- A doc-string fence toggles the flag and is itself pushed verbatim. -/
theorem docstring_fence_step (ctx : Ctx) (line : String)
    (h : lineStartsWith line "\"\"\"" = true) :
    processLine ctx line = pushStep {ctx with inDocString := !ctx.inDocString} line := by
  simp [processLine, h]

/-- Inside a doc-string every non-fence line is pushed verbatim. -/
theorem indoc_step (ctx : Ctx) (line : String) (hdoc : ctx.inDocString = true)
    (h : lineStartsWith line "\"\"\"" = false) :
    processLine ctx line = pushStep ctx line := by
  simp [processLine, h, hdoc]

/-- Common dispatch residue of a table-row line: not a fence, not a tag,
no handler fires. -/
theorem table_line_residue (ctx : Ctx) (line : String)
    (h : lineStartsWith line "|" = true) :
    lineStartsWith line "\"\"\"" = false ∧ lineStartsWith line "@" = false ∧
      runHandler ctx line = Option.none := by
  obtain ⟨t, ht⟩ := (lineStartsWith_iff line "|").mp h
  rw [data_pipe] at ht
  simp only [List.cons_append, List.nil_append] at ht
  have hq := notStarts_head ht "\"\"\"" '"' _ data_docstring (by decide)
  have hat := notStarts_head ht "@" '@' _ data_at (by decide)
  have hF := notStarts_head ht "Feature:" 'F' _ data_feature (by decide)
  have hB := notStarts_head ht "Background:" 'B' _ data_background (by decide)
  have hSO := notStarts_head ht "Scenario Outline:" 'S' _ data_outline (by decide)
  have hS := notStarts_head ht "Scenario:" 'S' _ data_scenario (by decide)
  have hE := notStarts_head ht "Examples:" 'E' _ data_examples (by decide)
  have hR := notStarts_head ht "Rule:" 'R' _ data_rule (by decide)
  refine ⟨hq, hat, ?_⟩
  simp [runHandler, hF, hB, hSO, hS, hE, hR]

/-- A table row arriving while no header is buffered becomes the header
and changes nothing else. -/
theorem table_line_header (ctx : Ctx) (line : String) (hdoc : ctx.inDocString = false)
    (h : lineStartsWith line "|" = true) (hh : ctx.headers = []) :
    processLine ctx line = {ctx with headers := parseTableRow line} := by
  obtain ⟨hq, hat, hrun⟩ := table_line_residue ctx line h
  simp [processLine, hq, hdoc, hat, hrun, h, hh]

/-- A table row with a buffered header and an active outline zips the
header with the row's cells into a new example row of the last outline. -/
theorem table_line_append (ctx : Ctx) (line : String) (hdoc : ctx.inDocString = false)
    (h : lineStartsWith line "|" = true) (hh : ctx.headers ≠ [])
    (o : ScenarioOutlineModel)
    (hlast : ctx.feature.scenarios.getLast? = some (ScenarioEntry.outline o)) :
    processLine ctx line =
      {ctx with feature := {ctx.feature with
        scenarios := modifyLast
          (pushExample (zipRow ctx.headers (parseTableRow line)))
          ctx.feature.scenarios}} := by
  obtain ⟨hq, hat, hrun⟩ := table_line_residue ctx line h
  simp [processLine, hq, hdoc, hat, hrun, h, hh, hlast]

/-- A table row with a buffered header but no active outline is silently
ignored. -/
theorem table_line_ignored (ctx : Ctx) (line : String) (hdoc : ctx.inDocString = false)
    (h : lineStartsWith line "|" = true) (hh : ctx.headers ≠ [])
    (hlast : ctx.feature.scenarios.getLast? = Option.none ∨
      ∃ s, ctx.feature.scenarios.getLast? = some (ScenarioEntry.scenario s)) :
    processLine ctx line = ctx := by
  obtain ⟨hq, hat, hrun⟩ := table_line_residue ctx line h
  rcases hlast with hlast | ⟨s, hlast⟩
  · simp [processLine, hq, hdoc, hat, hrun, h, hh, hlast]
  · simp [processLine, hq, hdoc, hat, hrun, h, hh, hlast]

/-! ## C2: tag lines -/

/-- C2: every line starting with `@` processed outside a doc-string is
split on whitespace runs and becomes the new pending-tags buffer,
replacing any previously buffered tokens; nothing is appended to the
feature, background, or any scenario (every other context field is
unchanged). -/
theorem tag_line_replaces_pending (ctx : Ctx) (line : String)
    (hdoc : ctx.inDocString = false) (htag : lineStartsWith line "@" = true) :
    processLine ctx line = {ctx with pendingTags := (splitWS line).map trimS} :=
  tag_step ctx line hdoc htag

/-- Witness for C2 at a concrete tag line: the buffer is replaced (not
extended) and the rest of the context is untouched. -/
theorem tag_line_replaces_pending_inst :
    processLine {initCtx with pendingTags := ["@old"]} "@smoke @fast" =
      {initCtx with pendingTags := ["@smoke", "@fast"]} := by
  have h := tag_line_replaces_pending {initCtx with pendingTags := ["@old"]}
    "@smoke @fast" rfl (by decide)
  rw [h]
  decide

/-! ## C1: tag flushing into the next scenario-like entity -/

/-- Processing a run of tag lines replaces the pending buffer with the
tokens of the last line of the run and changes nothing else. -/
theorem tag_run_fold (ctx : Ctx) (ls : List String) (tl : String)
    (hdoc : ctx.inDocString = false)
    (hall : ∀ l ∈ ls ++ [tl], lineStartsWith l "@" = true) :
    List.foldl processLine ctx (ls ++ [tl]) =
      {ctx with pendingTags := (splitWS tl).map trimS} := by
  induction ls generalizing ctx with
  | nil =>
    simpa using tag_step ctx tl hdoc (hall tl (by simp))
  | cons a as ih =>
    have ha : lineStartsWith a "@" = true := hall a (by simp)
    simp only [List.cons_append, List.foldl_cons]
    rw [tag_step ctx a hdoc ha]
    exact ih {ctx with pendingTags := (splitWS a).map trimS} hdoc
      (fun l hl => hall l (by simp at hl ⊢; tauto))

/-- C1 counterexample: two adjacent tag lines followed by `Scenario:` give
the scenario the tokens of the last tag line only (`["@b"]`), not the
concatenation `["@a", "@b"]` the claim states. -/
theorem tags_not_concatenated_cex :
    parseFeatureLines ["@a", "@b", "Scenario: s"] =
      {name := "", description := [], background := Option.none,
       scenarios := [ScenarioEntry.scenario {name := "s", steps := [], tags := ["@b"]}]} ∧
    (["@b"] : List String) ≠ ["@a", "@b"] := by decide

/-- C1 (amended): for every run of one or more tag lines immediately
followed by a `Scenario:` or `Scenario Outline:` line, the produced
entity's tags equal the whitespace-separated tokens of the LAST tag line
of the run (each tag line replaces, rather than extends, the pending
buffer), and immediately afterwards the pending buffer is empty, so a
subsequent scenario line with no preceding tag lines gets an empty tag
list. -/
theorem tags_flush_last_tag_line (ctx : Ctx) (tagLines : List String) (tl scLine : String)
    (hdoc : ctx.inDocString = false)
    (hall : ∀ l ∈ tagLines ++ [tl], lineStartsWith l "@" = true)
    (hsc : lineStartsWith scLine "Scenario:" = true ∨
           lineStartsWith scLine "Scenario Outline:" = true) :
    (∃ e, (List.foldl processLine ctx (tagLines ++ [tl] ++ [scLine])).feature.scenarios =
        ctx.feature.scenarios ++ [e] ∧ tagsOfE e = (splitWS tl).map trimS) ∧
    (List.foldl processLine ctx (tagLines ++ [tl] ++ [scLine])).pendingTags = [] ∧
    (∀ scLine2,
      (lineStartsWith scLine2 "Scenario:" = true ∨
       lineStartsWith scLine2 "Scenario Outline:" = true) →
      ∃ e2,
        (processLine (List.foldl processLine ctx (tagLines ++ [tl] ++ [scLine])) scLine2).feature.scenarios =
          (List.foldl processLine ctx (tagLines ++ [tl] ++ [scLine])).feature.scenarios ++ [e2] ∧
        tagsOfE e2 = []) := by
  have hfold : List.foldl processLine ctx (tagLines ++ [tl] ++ [scLine]) =
      processLine {ctx with pendingTags := (splitWS tl).map trimS} scLine := by
    rw [List.foldl_append, tag_run_fold ctx tagLines tl hdoc hall]
    rfl
  have hdoc1 : ({ctx with pendingTags := (splitWS tl).map trimS} : Ctx).inDocString = false := hdoc
  refine ⟨?_, ?_, ?_⟩
  · rcases hsc with hsc | hsc
    · rw [hfold, scenario_line_step _ scLine hdoc1 hsc]
      exact ⟨_, rfl, rfl⟩
    · rw [hfold, outline_line_step _ scLine hdoc1 hsc]
      exact ⟨_, rfl, rfl⟩
  · rcases hsc with hsc | hsc
    · rw [hfold, scenario_line_step _ scLine hdoc1 hsc]
    · rw [hfold, outline_line_step _ scLine hdoc1 hsc]
  · intro scLine2 hsc2
    have hstate : (List.foldl processLine ctx (tagLines ++ [tl] ++ [scLine])).inDocString = false ∧
        (List.foldl processLine ctx (tagLines ++ [tl] ++ [scLine])).pendingTags = [] := by
      rcases hsc with hsc | hsc
      · rw [hfold, scenario_line_step _ scLine hdoc1 hsc]; exact ⟨hdoc, rfl⟩
      · rw [hfold, outline_line_step _ scLine hdoc1 hsc]; exact ⟨hdoc, rfl⟩
    rcases hsc2 with hsc2 | hsc2
    · rw [scenario_line_step _ scLine2 hstate.1 hsc2, hstate.2]
      exact ⟨_, rfl, rfl⟩
    · rw [outline_line_step _ scLine2 hstate.1 hsc2, hstate.2]
      exact ⟨_, rfl, rfl⟩

/-- Witness for C1 (amended) at a concrete run of two tag lines followed
by a scenario line. -/
theorem tags_flush_last_tag_line_inst :
    (∃ e, (List.foldl processLine initCtx (["@a"] ++ ["@b @c"] ++ ["Scenario: s"])).feature.scenarios =
        initCtx.feature.scenarios ++ [e] ∧ tagsOfE e = (splitWS "@b @c").map trimS) ∧
    (List.foldl processLine initCtx (["@a"] ++ ["@b @c"] ++ ["Scenario: s"])).pendingTags = [] ∧
    (∀ scLine2,
      (lineStartsWith scLine2 "Scenario:" = true ∨
       lineStartsWith scLine2 "Scenario Outline:" = true) →
      ∃ e2,
        (processLine (List.foldl processLine initCtx (["@a"] ++ ["@b @c"] ++ ["Scenario: s"])) scLine2).feature.scenarios =
          (List.foldl processLine initCtx (["@a"] ++ ["@b @c"] ++ ["Scenario: s"])).feature.scenarios ++ [e2] ∧
        tagsOfE e2 = []) :=
  tags_flush_last_tag_line initCtx ["@a"] "@b @c" "Scenario: s" rfl (by decide)
    (Or.inl (by decide))

/-! ## pushStep and collector lemmas -/

theorem modifyLast_length {α : Type} (f : α → α) (l : List α) :
    (modifyLast f l).length = l.length := by
  induction l with
  | nil => rfl
  | cons a as ih =>
    cases as with
    | nil => rfl
    | cons b bs => simpa [modifyLast] using ih

theorem getLast?_modifyLast {α : Type} (f : α → α) (l : List α) :
    (modifyLast f l).getLast? = l.getLast?.map f := by
  induction l with
  | nil => rfl
  | cons a as ih =>
    cases as with
    | nil => rfl
    | cons b bs =>
      cases bs with
      | nil => simp [modifyLast]
      | cons c cs =>
        show (a :: b :: modifyLast f (c :: cs)).getLast? = _
        rw [List.getLast?_cons_cons, List.getLast?_cons_cons]
        exact ih

theorem stepsOfE_addStep (s : String) (e : ScenarioEntry) :
    stepsOfE (addStep s e) = stepsOfE e ++ [s] := by
  cases e <;> rfl

theorem examplesOf_addStep (s : String) (e : ScenarioEntry) :
    examplesOf (addStep s e) = examplesOf e := by
  cases e <;> rfl

theorem pushStep_target (ctx : Ctx) (s : String) : (pushStep ctx s).target = ctx.target := by
  rcases ctx with ⟨f, d, tg, m, hh, pt, doc⟩
  cases tg <;> rfl

theorem pushStep_inDoc (ctx : Ctx) (s : String) :
    (pushStep ctx s).inDocString = ctx.inDocString := by
  rcases ctx with ⟨f, d, tg, m, hh, pt, doc⟩
  cases tg <;> rfl

theorem pushStep_inDocString_comm (ctx : Ctx) (b : Bool) (s : String) :
    pushStep {ctx with inDocString := b} s = {pushStep ctx s with inDocString := b} := by
  rcases ctx with ⟨f, d, tg, m, hh, pt, doc⟩
  cases tg <;> rfl

theorem foldl_pushStep_inDocString_comm (ls : List String) (ctx : Ctx) (b : Bool) :
    List.foldl pushStep {ctx with inDocString := b} ls =
      {List.foldl pushStep ctx ls with inDocString := b} := by
  induction ls generalizing ctx with
  | nil => rfl
  | cons a as ih =>
    simp only [List.foldl_cons, pushStep_inDocString_comm]
    exact ih (pushStep ctx a)

theorem foldl_pushStep_target (ls : List String) (ctx : Ctx) :
    (List.foldl pushStep ctx ls).target = ctx.target := by
  induction ls generalizing ctx with
  | nil => rfl
  | cons a as ih =>
    simp only [List.foldl_cons]
    rw [ih (pushStep ctx a), pushStep_target]

theorem foldl_pushStep_inDoc (ls : List String) (ctx : Ctx) :
    (List.foldl pushStep ctx ls).inDocString = ctx.inDocString := by
  induction ls generalizing ctx with
  | nil => rfl
  | cons a as ih =>
    simp only [List.foldl_cons]
    rw [ih (pushStep ctx a), pushStep_inDoc]

theorem ctx_set_inDoc_self (x : Ctx) (b : Bool) (h : x.inDocString = b) :
    ({x with inDocString := b} : Ctx) = x := by
  rcases x with ⟨f, d, tg, m, hh, pt, doc⟩
  cases h
  rfl

theorem pushStep_collector (ctx : Ctx) (s : String) (h : CtxWF ctx) :
    collectorContent (pushStep ctx s) = collectorContent ctx ++ [s] ∧
      CtxWF (pushStep ctx s) := by
  obtain ⟨hb, hs⟩ := h
  rcases ctx with ⟨⟨fn, fd, fb, fs⟩, d, tg, m, hh, pt, doc⟩
  cases tg with
  | detached =>
    exact ⟨rfl, by simp [CtxWF, pushStep], by simp [CtxWF, pushStep]⟩
  | background =>
    cases fb with
    | none => simp [CtxWF] at hb
    | some bg =>
      refine ⟨rfl, ?_, ?_⟩ <;> simp [CtxWF, pushStep]
  | scenario =>
    cases fs with
    | nil => simp [CtxWF] at hs
    | cons e es =>
      refine ⟨?_, ?_, ?_⟩
      · show collectorContent _ = _
        simp only [pushStep, collectorContent, getLast?_modifyLast]
        cases hle : (e :: es).getLast? with
        | none => simp at hle
        | some le => simp [stepsOfE_addStep]
      · simp [CtxWF, pushStep]
      · intro _
        simp only [pushStep]
        have := modifyLast_length (addStep s) (e :: es)
        intro hcon
        rw [hcon] at this
        simp at this

theorem foldl_pushStep_collector (ls : List String) (ctx : Ctx) (h : CtxWF ctx) :
    collectorContent (List.foldl pushStep ctx ls) = collectorContent ctx ++ ls ∧
      CtxWF (List.foldl pushStep ctx ls) := by
  induction ls generalizing ctx with
  | nil => exact ⟨by simp, h⟩
  | cons a as ih =>
    obtain ⟨h1, h2⟩ := pushStep_collector ctx a h
    obtain ⟨h3, h4⟩ := ih (pushStep ctx a) h2
    refine ⟨?_, h4⟩
    simp only [List.foldl_cons, h3, h1, List.append_assoc, List.cons_append, List.nil_append]

/-! ## C6: doc-string capture -/

/-- While the doc-string flag is set, every non-fence line is just pushed:
the dispatch loop degenerates to the collector push. -/
theorem indoc_fold (ctx : Ctx) (ls : List String) (hdoc : ctx.inDocString = true)
    (hall : ∀ l ∈ ls, lineStartsWith l "\"\"\"" = false) :
    List.foldl processLine ctx ls = List.foldl pushStep ctx ls := by
  induction ls generalizing ctx with
  | nil => rfl
  | cons a as ih =>
    simp only [List.foldl_cons]
    rw [indoc_step ctx a hdoc (hall a (by simp))]
    exact ih (pushStep ctx a) (by rw [pushStep_inDoc]; exact hdoc)
      (fun l hl => hall l (by simp [hl]))

/-- C6: an opening fence line, arbitrary inner lines (even ones starting
with section keywords, step keywords, `@` or `|`), and a closing fence are
all appended verbatim and in order to the step collector that was active
when the opening fence was seen: processing the block is exactly folding
the collector push over all of its lines, the collector target is
unchanged, and the doc-string flag is clear afterwards. -/
theorem doc_string_verbatim_capture (ctx : Ctx) (d1 d2 : String) (inner : List String)
    (hdoc : ctx.inDocString = false)
    (h1 : lineStartsWith d1 "\"\"\"" = true)
    (h2 : lineStartsWith d2 "\"\"\"" = true)
    (hin : ∀ l ∈ inner, lineStartsWith l "\"\"\"" = false) :
    List.foldl processLine ctx (d1 :: inner ++ [d2]) =
      List.foldl pushStep ctx (d1 :: inner ++ [d2]) ∧
    (List.foldl processLine ctx (d1 :: inner ++ [d2])).target = ctx.target ∧
    (List.foldl processLine ctx (d1 :: inner ++ [d2])).inDocString = false ∧
    (CtxWF ctx →
      collectorContent (List.foldl processLine ctx (d1 :: inner ++ [d2])) =
        collectorContent ctx ++ (d1 :: inner ++ [d2])) := by
  have hfb : (pushStep ctx d1).inDocString = false := by rw [pushStep_inDoc]; exact hdoc
  have key : List.foldl processLine ctx (d1 :: inner ++ [d2]) =
      List.foldl pushStep ctx (d1 :: inner ++ [d2]) := by
    have e1 : processLine ctx d1 = {pushStep ctx d1 with inDocString := true} := by
      rw [docstring_fence_step ctx d1 h1, hdoc, pushStep_inDocString_comm]
      rfl
    calc List.foldl processLine ctx (d1 :: inner ++ [d2])
        = List.foldl processLine (processLine ctx d1) (inner ++ [d2]) := rfl
      _ = List.foldl processLine {pushStep ctx d1 with inDocString := true} (inner ++ [d2]) := by
            rw [e1]
      _ = processLine
            (List.foldl processLine {pushStep ctx d1 with inDocString := true} inner) d2 := by
            rw [List.foldl_append]
            rfl
      _ = processLine
            {List.foldl pushStep (pushStep ctx d1) inner with inDocString := true} d2 := by
            rw [indoc_fold _ inner rfl hin, foldl_pushStep_inDocString_comm]
      _ = pushStep
            {List.foldl pushStep (pushStep ctx d1) inner with inDocString := false} d2 := by
            rw [docstring_fence_step _ d2 h2]
            rfl
      _ = {pushStep (List.foldl pushStep (pushStep ctx d1) inner) d2
            with inDocString := false} := by
            rw [pushStep_inDocString_comm]
      _ = pushStep (List.foldl pushStep (pushStep ctx d1) inner) d2 := by
            apply ctx_set_inDoc_self
            rw [pushStep_inDoc, foldl_pushStep_inDoc]
            exact hfb
      _ = List.foldl pushStep ctx (d1 :: inner ++ [d2]) := by
            simp [List.foldl_append]
  refine ⟨key, ?_, ?_, ?_⟩
  · rw [key, foldl_pushStep_target]
  · rw [key, foldl_pushStep_inDoc]
    exact hdoc
  · intro hwf
    rw [key]
    exact (foldl_pushStep_collector _ ctx hwf).1

/-- Witness for C6: a doc-string whose inner lines start with a step
keyword, a tag marker, a pipe and a section keyword is captured verbatim
by the collector active at the opening fence. -/
theorem doc_string_verbatim_capture_inst :
    List.foldl processLine initCtx
        ("\"\"\"" :: ["Given x", "@tag", "| 1 |", "Scenario: ghost"] ++ ["\"\"\""]) =
      List.foldl pushStep initCtx
        ("\"\"\"" :: ["Given x", "@tag", "| 1 |", "Scenario: ghost"] ++ ["\"\"\""]) ∧
    (List.foldl processLine initCtx
        ("\"\"\"" :: ["Given x", "@tag", "| 1 |", "Scenario: ghost"] ++ ["\"\"\""])).target =
      initCtx.target ∧
    (List.foldl processLine initCtx
        ("\"\"\"" :: ["Given x", "@tag", "| 1 |", "Scenario: ghost"] ++ ["\"\"\""])).inDocString =
      false ∧
    (CtxWF initCtx →
      collectorContent (List.foldl processLine initCtx
          ("\"\"\"" :: ["Given x", "@tag", "| 1 |", "Scenario: ghost"] ++ ["\"\"\""])) =
        collectorContent initCtx ++
          ("\"\"\"" :: ["Given x", "@tag", "| 1 |", "Scenario: ghost"] ++ ["\"\"\""])) :=
  doc_string_verbatim_capture initCtx "\"\"\"" "\"\"\""
    ["Given x", "@tag", "| 1 |", "Scenario: ghost"] rfl (by decide) (by decide) (by decide)

/-! ## C10: steps before any section go to the detached collector -/

theorem pushStep_detached_prepend (ctx : Ctx) (d0 : List String) (s : String) :
    pushStep {ctx with detached := d0 ++ ctx.detached} s =
      {pushStep ctx s with detached := d0 ++ (pushStep ctx s).detached} := by
  rcases ctx with ⟨f, d, tg, m, hh, pt, doc⟩
  cases tg <;> simp [pushStep]

theorem runHandler_detached (f : FeatureModel) (d X : List String) (tg : Target)
    (m : ParseMode) (hh pt : List String) (doc : Bool) (line : String) :
    runHandler ⟨f, X, tg, m, hh, pt, doc⟩ line =
      (runHandler ⟨f, d, tg, m, hh, pt, doc⟩ line).map (fun c => {c with detached := X}) := by
  unfold runHandler
  repeat' split
  all_goals rfl

theorem runHandler_detached_self (ctx : Ctx) (line : String) (c : Ctx)
    (h : runHandler ctx line = some c) : c.detached = ctx.detached := by
  unfold runHandler at h
  repeat' split at h
  all_goals first
    | (injection h with h; exact h ▸ rfl)
    | exact Option.noConfusion h

/-- The dispatch loop never reads the detached collector: prepending to it
commutes with processing any line. -/
theorem processLine_detached_prepend (ctx : Ctx) (d0 : List String) (line : String) :
    processLine {ctx with detached := d0 ++ ctx.detached} line =
      {processLine ctx line with detached := d0 ++ (processLine ctx line).detached} := by
  rcases ctx with ⟨f, d, tg, m, hh, pt, doc⟩
  by_cases hq : lineStartsWith line "\"\"\"" = true
  · rw [docstring_fence_step _ line hq, docstring_fence_step _ line hq]
    exact pushStep_detached_prepend ⟨f, d, tg, m, hh, pt, !doc⟩ d0 line
  · have hq' : lineStartsWith line "\"\"\"" = false := by simpa using hq
    by_cases hdoc : doc = true
    · rw [indoc_step _ line hdoc hq', indoc_step _ line hdoc hq']
      exact pushStep_detached_prepend ⟨f, d, tg, m, hh, pt, doc⟩ d0 line
    · have hdoc' : doc = false := by simpa using hdoc
      subst hdoc'
      by_cases htag : lineStartsWith line "@" = true
      · rw [tag_step _ line rfl htag, tag_step _ line rfl htag]
      · have htag' : lineStartsWith line "@" = false := by simpa using htag
        simp only [processLine, hq', htag', Bool.false_eq_true, if_false]
        rw [runHandler_detached f d (d0 ++ d) tg m hh pt false line]
        cases hrh : runHandler ⟨f, d, tg, m, hh, pt, false⟩ line with
        | some c =>
          have hcd : c.detached = d := runHandler_detached_self _ line c hrh
          simp [hcd]
        | none =>
          simp only [Option.map_none]
          by_cases hp : lineStartsWith line "|" = true
          · by_cases hhh : hh = []
            · simp [hp, hhh]
            · cases hgl : f.scenarios.getLast? with
              | none => simp [hp, hhh, hgl]
              | some e =>
                cases e with
                | scenario sc => simp [hp, hhh, hgl]
                | outline o => simp [hp, hhh, hgl]
          · have hp' : lineStartsWith line "|" = false := by simpa using hp
            by_cases hst : isStepLine line = true
            · simp only [hp', Bool.false_eq_true, if_false, hst, if_true]
              exact pushStep_detached_prepend ⟨f, d, tg, m, hh, pt, false⟩ d0 line
            · have hst' : isStepLine line = false := by simpa using hst
              by_cases hdesc : line ≠ "" ∧ m = ParseMode.none
              · simp [hp', hst', hdesc]
              · simp [hp', hst', hdesc]

/-- Fold version of the detached-erasure property. -/
theorem foldl_detached_prepend (ls : List String) (ctx : Ctx) (d0 : List String) :
    List.foldl processLine {ctx with detached := d0 ++ ctx.detached} ls =
      {List.foldl processLine ctx ls with
        detached := d0 ++ (List.foldl processLine ctx ls).detached} := by
  induction ls generalizing ctx with
  | nil => rfl
  | cons a as ih =>
    simp only [List.foldl_cons]
    rw [processLine_detached_prepend]
    exact ih (processLine ctx a)

/-- Step lines processed while the collector is still detached are simply
appended to the detached array; nothing else changes. -/
theorem step_prefix_fold (ls : List String) (ctx : Ctx) (hdoc : ctx.inDocString = false)
    (htg : ctx.target = Target.detached)
    (hall : ∀ l ∈ ls, isStepLine l = true) :
    List.foldl processLine ctx ls = {ctx with detached := ctx.detached ++ ls} := by
  induction ls generalizing ctx with
  | nil => simp
  | cons a as ih =>
    simp only [List.foldl_cons]
    rw [step_line_eq_pushStep ctx a hdoc (hall a (by simp))]
    have hpush : pushStep ctx a = {ctx with detached := ctx.detached ++ [a]} := by
      rcases ctx with ⟨f, d, tg, m, hh, pt, doc⟩
      cases htg
      rfl
    rw [hpush,
      ih {ctx with detached := ctx.detached ++ [a]} hdoc htg
        (fun l hl => hall l (by simp [hl]))]
    simp

/-- A step-keyword line is never a doc-string fence. -/
theorem step_not_fence (line : String) (h : isStepLine line = true) :
    lineStartsWith line "\"\"\"" = false := by
  have h5 : lineStartsWith line "Given" = true ∨ lineStartsWith line "When" = true ∨
      lineStartsWith line "Then" = true ∨ lineStartsWith line "And" = true ∨
      lineStartsWith line "But" = true := by
    simpa [isStepLine, STEP_KEYWORDS] using h
  rcases h5 with h1 | h1 | h1 | h1 | h1
  all_goals
    obtain ⟨t, ht⟩ := (lineStartsWith_iff _ _).mp h1
  all_goals
    first
      | rw [data_given] at ht
      | rw [data_when] at ht
      | rw [data_then] at ht
      | rw [data_and] at ht
      | rw [data_but] at ht
  all_goals
    simp only [List.cons_append, List.nil_append] at ht
  all_goals
    exact notStarts_head ht "\"\"\"" '"' _ data_docstring (by decide)

/-- The only handlers that redirect the step collector are `Background:`,
`Scenario:` and `Scenario Outline:`; every other handler preserves the
target. -/
theorem runHandler_target_preserved (ctx : Ctx) (line : String) (c : Ctx)
    (hrh : runHandler ctx line = some c)
    (hB : lineStartsWith line "Background:" = false)
    (hS : lineStartsWith line "Scenario:" = false)
    (hSO : lineStartsWith line "Scenario Outline:" = false) :
    c.target = ctx.target := by
  unfold runHandler at hrh
  simp only [hB, hS, hSO, Bool.false_eq_true, if_false] at hrh
  repeat' split at hrh
  all_goals first
    | exact Option.noConfusion hrh
    | (injection hrh with hrh; exact hrh ▸ rfl)

/-- A line that starts with none of `Background:`, `Scenario:`,
`Scenario Outline:` leaves the collector target unchanged. -/
theorem processLine_target_preserved (ctx : Ctx) (line : String)
    (hB : lineStartsWith line "Background:" = false)
    (hS : lineStartsWith line "Scenario:" = false)
    (hSO : lineStartsWith line "Scenario Outline:" = false) :
    (processLine ctx line).target = ctx.target := by
  by_cases hq : lineStartsWith line "\"\"\"" = true
  · rw [docstring_fence_step ctx line hq, pushStep_target]
  · have hq' : lineStartsWith line "\"\"\"" = false := by simpa using hq
    by_cases hdoc : ctx.inDocString = true
    · rw [indoc_step ctx line hdoc hq', pushStep_target]
    · have hdoc' : ctx.inDocString = false := by simpa using hdoc
      by_cases htag : lineStartsWith line "@" = true
      · rw [tag_step ctx line hdoc' htag]
      · have htag' : lineStartsWith line "@" = false := by simpa using htag
        rcases ctx with ⟨f, d, tg, m, hh, pt, doc⟩
        have hdoc2 : doc = false := hdoc'
        subst hdoc2
        simp only [processLine, hq', htag', Bool.false_eq_true, if_false]
        cases hrh : runHandler ⟨f, d, tg, m, hh, pt, false⟩ line with
        | some c => exact runHandler_target_preserved _ line c hrh hB hS hSO
        | none =>
          by_cases hp : lineStartsWith line "|" = true
          · by_cases hhh : hh = []
            · simp [hp, hhh]
            · cases hgl : f.scenarios.getLast? with
              | none => simp [hp, hhh, hgl]
              | some e =>
                cases e with
                | scenario sc => simp [hp, hhh, hgl]
                | outline o => simp [hp, hhh, hgl]
          · have hp' : lineStartsWith line "|" = false := by simpa using hp
            by_cases hst : isStepLine line = true
            · simp only [hp', Bool.false_eq_true, if_false, hst, if_true]
              rw [pushStep_target]
            · have hst' : isStepLine line = false := by simpa using hst
              simp only [hp', hst', Bool.false_eq_true, if_false]
              by_cases hdesc : line ≠ "" ∧ m = ParseMode.none
              · rw [if_pos hdesc]
              · rw [if_neg hdesc]

/-- Until the first `Background:`, `Scenario:`, or `Scenario Outline:`
line, the collector target stays detached. -/
theorem foldl_target_detached (ls : List String) (ctx : Ctx)
    (htg : ctx.target = Target.detached)
    (hall : ∀ l ∈ ls, lineStartsWith l "Background:" = false ∧
      lineStartsWith l "Scenario:" = false ∧
      lineStartsWith l "Scenario Outline:" = false) :
    (List.foldl processLine ctx ls).target = Target.detached := by
  induction ls generalizing ctx with
  | nil => exact htg
  | cons a as ih =>
    simp only [List.foldl_cons]
    obtain ⟨hB, hS, hSO⟩ := hall a (by simp)
    exact ih (processLine ctx a)
      ((processLine_target_preserved ctx a hB hS hSO).trans htg)
      (fun l hl => hall l (by simp [hl]))

/-- A step line processed while the collector is detached (whether or not
a doc-string is open) only appends itself to the detached array. -/
theorem step_push_detached (s : Ctx) (l : String)
    (htg : s.target = Target.detached) (hstep : isStepLine l = true) :
    processLine s l = {s with detached := s.detached ++ [l]} := by
  have hpush : pushStep s l = {s with detached := s.detached ++ [l]} := by
    rcases s with ⟨f, d, tg, m, hh, pt, doc⟩
    cases htg
    rfl
  by_cases hdoc : s.inDocString = true
  · rw [indoc_step s l hdoc (step_not_fence l hstep), hpush]
  · rw [step_line_eq_pushStep s l (by simpa using hdoc) hstep, hpush]

/-- Everything except the detached array evolves independently of the
detached array. -/
theorem foldl_clearDetached (ls : List String) (ctx : Ctx) :
    List.foldl processLine ctx ls =
      {List.foldl processLine (clearDetached ctx) ls with
        detached := (List.foldl processLine ctx ls).detached} := by
  have hctx : ({clearDetached ctx with
      detached := ctx.detached ++ (clearDetached ctx).detached} : Ctx) = ctx := by
    simp [clearDetached]
  have h2 := foldl_detached_prepend ls (clearDetached ctx) ctx.detached
  rw [hctx] at h2
  rw [h2]

/-- Two contexts that agree outside the detached array keep agreeing
outside the detached array under any further processing. -/
theorem foldl_clearDetached_congr (ls : List String) (a b : Ctx)
    (h : clearDetached a = clearDetached b) :
    clearDetached (List.foldl processLine a ls) =
      clearDetached (List.foldl processLine b ls) := by
  rw [foldl_clearDetached ls a, foldl_clearDetached ls b, h]
  rfl

/-- Deleting every step line from a stretch of input containing no
`Background:`/`Scenario:`/`Scenario Outline:` line changes nothing
outside the detached array. -/
theorem foldl_filter_orphan_steps (pre : List String) :
    ∀ s : Ctx, s.target = Target.detached →
      (∀ p ∈ pre, lineStartsWith p "Background:" = false ∧
        lineStartsWith p "Scenario:" = false ∧
        lineStartsWith p "Scenario Outline:" = false) →
      clearDetached (List.foldl processLine s (pre.filter (fun p => !isStepLine p))) =
        clearDetached (List.foldl processLine s pre) := by
  induction pre with
  | nil => intro s _ _; rfl
  | cons p pre' ih =>
    intro s htg hall
    by_cases hstep : isStepLine p = true
    · have hf : (p :: pre').filter (fun q => !isStepLine q) =
          pre'.filter (fun q => !isStepLine q) := by
        simp [List.filter_cons, hstep]
      rw [hf, List.foldl_cons, step_push_detached s p htg hstep,
        ih s htg (fun q hq => hall q (by simp [hq]))]
      exact foldl_clearDetached_congr pre' s {s with detached := s.detached ++ [p]}
        (by simp [clearDetached])
    · have hf : (p :: pre').filter (fun q => !isStepLine q) =
          p :: pre'.filter (fun q => !isStepLine q) := by
        simp [List.filter_cons, hstep]
      obtain ⟨hB, hS, hSO⟩ := hall p (by simp)
      rw [hf, List.foldl_cons, List.foldl_cons]
      exact ih (processLine s p)
        ((processLine_target_preserved s p hB hS hSO).trans htg)
        (fun q hq => hall q (by simp [hq]))

/-- C10: a step-keyword line occurring anywhere before the first
`Background:`, `Scenario:`, or `Scenario Outline:` line — after
`Feature:`, description text, tag lines, table rows, `Rule:` or
`Examples:` lines, or inside an open doc-string — is appended to the
initial detached step collector, whose contents never reach the feature:
processing it only appends to the detached array, the parsed feature is
the same as with that line absent, and deleting every step line from the
stretch before the first section line leaves the parsed feature
unchanged. -/
theorem orphan_steps_invisible (pre rest : List String) (l : String)
    (hstep : isStepLine l = true)
    (hpre : ∀ p ∈ pre, lineStartsWith p "Background:" = false ∧
      lineStartsWith p "Scenario:" = false ∧
      lineStartsWith p "Scenario Outline:" = false) :
    processLine (parseLines pre) l =
      {parseLines pre with detached := (parseLines pre).detached ++ [l]} ∧
    parseFeatureLines (pre ++ l :: rest) = parseFeatureLines (pre ++ rest) ∧
    parseFeatureLines (pre ++ rest) =
      parseFeatureLines (pre.filter (fun p => !isStepLine p) ++ rest) := by
  have htg : (parseLines pre).target = Target.detached :=
    foldl_target_detached pre initCtx rfl hpre
  have hpushl : processLine (parseLines pre) l =
      {parseLines pre with detached := (parseLines pre).detached ++ [l]} :=
    step_push_detached (parseLines pre) l htg hstep
  have hsplit : ∀ ls tail, parseFeatureLines (ls ++ tail) =
      (List.foldl processLine (parseLines ls) tail).feature := by
    intro ls tail
    unfold parseFeatureLines parseLines
    rw [List.foldl_append]
  refine ⟨hpushl, ?_, ?_⟩
  · rw [hsplit pre (l :: rest), hsplit pre rest, List.foldl_cons, hpushl]
    have hc := foldl_clearDetached_congr rest
      {parseLines pre with detached := (parseLines pre).detached ++ [l]}
      (parseLines pre) (by simp [clearDetached])
    have hfeat := congrArg Ctx.feature hc
    exact hfeat
  · rw [hsplit pre rest, hsplit (pre.filter (fun p => !isStepLine p)) rest]
    have hc := foldl_clearDetached_congr rest (parseLines pre)
      (parseLines (pre.filter (fun p => !isStepLine p)))
      ((foldl_filter_orphan_steps pre initCtx rfl hpre).symm)
    have hfeat := congrArg Ctx.feature hc
    exact hfeat

/-- Witness for C10: a step line sitting after a `Feature:` line, a tag
line and a description line — but before the first `Scenario:` line — is
pushed to the detached array only, and the parsed feature matches the
parse without it (and without any such step line). -/
theorem orphan_steps_invisible_inst :
    processLine (parseLines ["Feature: F", "@smoke", "Some description"]) "Given x" =
      {parseLines ["Feature: F", "@smoke", "Some description"] with
        detached :=
          (parseLines ["Feature: F", "@smoke", "Some description"]).detached ++ ["Given x"]} ∧
    parseFeatureLines
        (["Feature: F", "@smoke", "Some description"] ++ "Given x" :: ["Scenario: s"]) =
      parseFeatureLines (["Feature: F", "@smoke", "Some description"] ++ ["Scenario: s"]) ∧
    parseFeatureLines (["Feature: F", "@smoke", "Some description"] ++ ["Scenario: s"]) =
      parseFeatureLines
        (["Feature: F", "@smoke", "Some description"].filter (fun p => !isStepLine p) ++
          ["Scenario: s"]) :=
  orphan_steps_invisible ["Feature: F", "@smoke", "Some description"] ["Scenario: s"]
    "Given x" (by decide) (by decide)

/-! ## C9: the parser never raises a structural error -/

/-- C9: malformed or out-of-order input degrades gracefully instead of
failing: a table row before any header becomes the header; a table row
while the active entity is absent or a plain scenario is silently
ignored; a step line before any scenario is pushed onto the (detached)
collector and leaves the feature untouched; an unclosed doc-string
captures every remaining line into the collector. The pass itself is a
total fold, so no error branch exists at all. -/
theorem parser_no_structural_error :
    (∀ ctx line, ctx.inDocString = false → lineStartsWith line "|" = true →
      ctx.headers = [] →
      processLine ctx line = {ctx with headers := parseTableRow line}) ∧
    (∀ ctx line, ctx.inDocString = false → lineStartsWith line "|" = true →
      ctx.headers ≠ [] →
      (ctx.feature.scenarios.getLast? = Option.none ∨
        ∃ s, ctx.feature.scenarios.getLast? = some (ScenarioEntry.scenario s)) →
      processLine ctx line = ctx) ∧
    (∀ ctx line, ctx.inDocString = false → isStepLine line = true →
      processLine ctx line = pushStep ctx line ∧
      (ctx.target = Target.detached → (pushStep ctx line).feature = ctx.feature)) ∧
    (∀ ctx lines, ctx.inDocString = true →
      (∀ l ∈ lines, lineStartsWith l "\"\"\"" = false) →
      List.foldl processLine ctx lines = List.foldl pushStep ctx lines) := by
  refine ⟨?_, ?_, ?_, ?_⟩
  · exact fun ctx line h1 h2 h3 => table_line_header ctx line h1 h2 h3
  · exact fun ctx line h1 h2 h3 h4 => table_line_ignored ctx line h1 h2 h3 h4
  · intro ctx line h1 h2
    refine ⟨step_line_eq_pushStep ctx line h1 h2, ?_⟩
    intro htg
    rcases ctx with ⟨f, d, tg, m, hh, pt, doc⟩
    cases htg
    rfl
  · exact fun ctx lines h1 h2 => indoc_fold ctx lines h1 h2

/-- Witness for C9 at concrete malformed inputs: a leading table row, a
table row aimed at a plain scenario, an orphan step line, and an unclosed
doc-string swallowing a `Scenario:` line. -/
theorem parser_no_structural_error_inst :
    processLine initCtx "| a |" = {initCtx with headers := parseTableRow "| a |"} ∧
    processLine
      {feature :=
         {name := "", description := [], background := Option.none,
          scenarios := [ScenarioEntry.scenario {name := "s", steps := [], tags := []}]},
       detached := [], target := Target.scenario, mode := ParseMode.scenario,
       headers := ["a"], pendingTags := [], inDocString := false} "| 1 |" =
      {feature :=
         {name := "", description := [], background := Option.none,
          scenarios := [ScenarioEntry.scenario {name := "s", steps := [], tags := []}]},
       detached := [], target := Target.scenario, mode := ParseMode.scenario,
       headers := ["a"], pendingTags := [], inDocString := false} ∧
    (processLine initCtx "Given x" = pushStep initCtx "Given x" ∧
      (initCtx.target = Target.detached →
        (pushStep initCtx "Given x").feature = initCtx.feature)) ∧
    List.foldl processLine {initCtx with inDocString := true} ["Scenario: inside"] =
      List.foldl pushStep {initCtx with inDocString := true} ["Scenario: inside"] :=
  ⟨parser_no_structural_error.1 initCtx "| a |" rfl (by decide) rfl,
   parser_no_structural_error.2.1 _ "| 1 |" rfl (by decide) (by decide)
     (Or.inr ⟨{name := "s", steps := [], tags := []}, rfl⟩),
   parser_no_structural_error.2.2.1 initCtx "Given x" rfl (by decide),
   parser_no_structural_error.2.2.2 {initCtx with inDocString := true}
     ["Scenario: inside"] rfl (by decide)⟩

/-! ## C3: example rows zip the buffered header -/

theorem keys_jsAssign {α : Type} (r : List (String × α)) (k : String) (v : α) :
    (jsAssign r k v).map Prod.fst =
      if k ∈ r.map Prod.fst then r.map Prod.fst else r.map Prod.fst ++ [k] := by
  induction r with
  | nil => simp [jsAssign]
  | cons p r ih =>
    obtain ⟨k', v'⟩ := p
    by_cases hk : k' = k
    · subst hk
      simp [jsAssign]
    · have hne : ¬ (k = k') := fun h => hk h.symm
      simp only [jsAssign, if_neg hk, List.map_cons, ih]
      by_cases hm : k ∈ r.map Prod.fst
      · simp [hm, hne]
      · simp [hm, hne]

theorem jsLookup_jsAssign_self {α : Type} (r : List (String × α)) (k : String) (v : α) :
    jsLookup k (jsAssign r k v) = some v := by
  induction r with
  | nil => simp [jsAssign, jsLookup]
  | cons p r ih =>
    obtain ⟨k', v'⟩ := p
    by_cases hk : k' = k
    · subst hk
      simp [jsAssign, jsLookup]
    · simp [jsAssign, jsLookup, hk, ih]

theorem jsLookup_jsAssign_ne {α : Type} (r : List (String × α)) (k k' : String) (v : α)
    (h : k' ≠ k) : jsLookup k (jsAssign r k' v) = jsLookup k r := by
  induction r with
  | nil => simp [jsAssign, jsLookup, h]
  | cons p r ih =>
    obtain ⟨k'', v''⟩ := p
    by_cases hk : k'' = k'
    · subst hk
      simp [jsAssign, jsLookup, h]
    · simp [jsAssign, jsLookup, hk, ih]

theorem keys_zipRowAux (cells : List String) (hs : List String) :
    ∀ (i : Nat) (r : List (String × String)),
      (zipRowAux cells i hs r).map Prod.fst = newKeysFrom (r.map Prod.fst) hs := by
  induction hs with
  | nil => intro i r; rfl
  | cons h t ih =>
    intro i r
    simp only [zipRowAux, newKeysFrom, ih, keys_jsAssign]

theorem lookup_zipRowAux (cells : List String) (hs : List String) (k : String) :
    ∀ (i : Nat) (r : List (String × String)),
      jsLookup k (zipRowAux cells i hs r) =
        (match lastPos k hs with
         | some j => some (cells.getD (i + j) "")
         | Option.none => jsLookup k r) := by
  induction hs with
  | nil => intro i r; rfl
  | cons h t ih =>
    intro i r
    simp only [zipRowAux, ih (i + 1), lastPos]
    cases hlp : lastPos k t with
    | some j =>
      simp only []
      have : i + 1 + j = i + (j + 1) := by omega
      rw [this]
    | none =>
      simp only []
      by_cases hk : h = k
      · subst hk
        simp [jsLookup_jsAssign_self]
      · simp [jsLookup_jsAssign_ne r k h _ hk, hk]

theorem mem_newKeysFrom (hs : List String) :
    ∀ (seen : List String) (k : String),
      k ∈ newKeysFrom seen hs ↔ k ∈ seen ∨ k ∈ hs := by
  induction hs with
  | nil => intro seen k; simp [newKeysFrom]
  | cons h t ih =>
    intro seen k
    by_cases hm : h ∈ seen
    · simp only [newKeysFrom, if_pos hm, ih]
      constructor
      · rintro (hk | hk)
        · exact Or.inl hk
        · exact Or.inr (by simp [hk])
      · rintro (hk | hk)
        · exact Or.inl hk
        · rcases List.mem_cons.mp hk with rfl | hk
          · exact Or.inl hm
          · exact Or.inr hk
    · simp only [newKeysFrom, if_neg hm, ih]
      constructor
      · rintro (hk | hk)
        · rcases List.mem_append.mp hk with hk | hk
          · exact Or.inl hk
          · simp at hk
            exact Or.inr (by simp [hk])
        · exact Or.inr (by simp [hk])
      · rintro (hk | hk)
        · exact Or.inl (List.mem_append.mpr (Or.inl hk))
        · rcases List.mem_cons.mp hk with rfl | hk
          · exact Or.inl (by simp)
          · exact Or.inr hk

theorem newKeysFrom_split (hs : List String) :
    ∀ (seen : List String),
      ∃ ex, newKeysFrom seen hs = seen ++ ex ∧ ex.Sublist hs ∧ ∀ k ∈ ex, k ∉ seen := by
  induction hs with
  | nil => intro seen; exact ⟨[], by simp [newKeysFrom]⟩
  | cons h t ih =>
    intro seen
    by_cases hm : h ∈ seen
    · obtain ⟨ex, he, hsub, hni⟩ := ih seen
      exact ⟨ex, by simp [newKeysFrom, hm, he], hsub.cons h, hni⟩
    · obtain ⟨ex, he, hsub, hni⟩ := ih (seen ++ [h])
      refine ⟨h :: ex, ?_, hsub.cons₂ h, ?_⟩
      · simp [newKeysFrom, hm, he]
      · intro k hk
        rcases List.mem_cons.mp hk with rfl | hk
        · exact hm
        · intro hks
          exact hni k hk (List.mem_append.mpr (Or.inl hks))

theorem newKeysFrom_nodup_eq (hs : List String) :
    ∀ (seen : List String), hs.Nodup → (∀ k ∈ hs, k ∉ seen) →
      newKeysFrom seen hs = seen ++ hs := by
  induction hs with
  | nil => intro seen _ _; simp [newKeysFrom]
  | cons h t ih =>
    intro seen hnd hdis
    have hm : h ∉ seen := hdis h (by simp)
    rw [newKeysFrom, if_neg hm, ih (seen ++ [h]) (List.nodup_cons.mp hnd).2]
    · simp
    · intro k hk
      simp only [List.mem_append, List.mem_singleton]
      rintro (hks | rfl)
      · exact hdis k (by simp [hk]) hks
      · exact (List.nodup_cons.mp hnd).1 hk

theorem lastPos_lt_length (k : String) (hs : List String) (j : Nat)
    (h : lastPos k hs = some j) : j < hs.length := by
  induction hs generalizing j with
  | nil => simp [lastPos] at h
  | cons a as ih =>
    rw [lastPos] at h
    cases hlp : lastPos k as with
    | some j2 =>
      rw [hlp] at h
      injection h with h
      subst h
      have := ih j2 hlp
      simp only [List.length_cons]
      omega
    | none =>
      rw [hlp] at h
      by_cases hak : a = k
      · simp only [hak, if_pos rfl] at h
        injection h with h
        subst h
        simp
      · simp [hak] at h

theorem lastPos_ge (k : String) (hs : List String) :
    ∀ (i : Nat) (hi : i < hs.length), hs.get ⟨i, hi⟩ = k →
      ∃ j, lastPos k hs = some j ∧ i ≤ j ∧ j < hs.length := by
  induction hs with
  | nil => intro i hi; exact absurd hi (by simp)
  | cons h t ih =>
    intro i hi hget
    cases i with
    | zero =>
      cases hlp : lastPos k t with
      | some j =>
        have hlt := lastPos_lt_length k t j hlp
        exact ⟨j + 1, by simp [lastPos, hlp], by omega, by simp; omega⟩
      | none =>
        simp at hget
        exact ⟨0, by simp [lastPos, hlp, hget], by omega, by simp⟩
    | succ i' =>
      have hi' : i' < t.length := by simpa using hi
      have hget' : t.get ⟨i', hi'⟩ = k := by simpa using hget
      obtain ⟨j, hj, hij, hjl⟩ := ih i' hi' hget'
      exact ⟨j + 1, by simp [lastPos, hj], by omega, by simp; omega⟩

/-- The packaged properties of one zipped example row. -/
theorem zipRow_spec (headers cells : List String) :
    (zipRow headers cells).map Prod.fst = newKeysFrom [] headers ∧
    (∀ k, k ∈ (zipRow headers cells).map Prod.fst ↔ k ∈ headers) ∧
    ((zipRow headers cells).map Prod.fst).Sublist headers ∧
    (headers.Nodup → (zipRow headers cells).map Prod.fst = headers) ∧
    (∀ i, (hi : i < headers.length) → cells.length ≤ i →
      jsLookup (headers.get ⟨i, hi⟩) (zipRow headers cells) = some "") := by
  have hkeys : (zipRow headers cells).map Prod.fst = newKeysFrom [] headers := by
    rw [zipRow, keys_zipRowAux]
    rfl
  refine ⟨hkeys, ?_, ?_, ?_, ?_⟩
  · intro k
    rw [hkeys, mem_newKeysFrom]
    simp
  · rw [hkeys]
    obtain ⟨ex, he, hsub, _⟩ := newKeysFrom_split headers []
    rw [he]
    simpa using hsub
  · intro hnd
    rw [hkeys, newKeysFrom_nodup_eq headers [] hnd (by simp)]
    simp
  · intro i hi hcl
    obtain ⟨j, hj, hij, hjl⟩ := lastPos_ge (headers.get ⟨i, hi⟩) headers i hi rfl
    rw [zipRow, lookup_zipRowAux, hj]
    simp only [Nat.zero_add]
    rw [List.getD_eq_default]
    omega

theorem mem_modifyLast {α : Type} (f : α → α) (l : List α) (a : α)
    (h : a ∈ modifyLast f l) : a ∈ l ∨ ∃ b, b ∈ l ∧ a = f b := by
  induction l with
  | nil => simp [modifyLast] at h
  | cons x xs ih =>
    cases xs with
    | nil =>
      simp [modifyLast] at h
      exact Or.inr ⟨x, by simp, h⟩
    | cons y ys =>
      rcases List.mem_cons.mp h with rfl | h
      · exact Or.inl (by simp)
      · rcases ih h with h | ⟨b, hb, rfl⟩
        · exact Or.inl (by simp [h])
        · exact Or.inr ⟨b, by simp [hb], rfl⟩

theorem examplesOf_pushExample (r : List (String × String)) (e : ScenarioEntry)
    (row : List (String × String)) (h : row ∈ examplesOf (pushExample r e)) :
    row ∈ examplesOf e ∨ row = r := by
  cases e with
  | scenario sc => exact Or.inl h
  | outline o =>
    simp [pushExample, examplesOf] at h
    rcases h with h | h
    · exact Or.inl h
    · exact Or.inr h

theorem pushStep_examples (ctx : Ctx) (s : String) (e : ScenarioEntry)
    (h : e ∈ (pushStep ctx s).feature.scenarios) :
    ∃ e0, e0 ∈ ctx.feature.scenarios ∧ examplesOf e = examplesOf e0 := by
  rcases ctx with ⟨f, d, tg, m, hh, pt, doc⟩
  cases tg with
  | detached => exact ⟨e, h, rfl⟩
  | background => exact ⟨e, h, rfl⟩
  | scenario =>
    have h' : e ∈ modifyLast (addStep s) f.scenarios := h
    rcases mem_modifyLast _ _ _ h' with h2 | ⟨b, hb, rfl⟩
    · exact ⟨e, h2, rfl⟩
    · exact ⟨b, hb, examplesOf_addStep s b⟩

theorem runHandler_examples (ctx : Ctx) (line : String) (c : Ctx)
    (hrh : runHandler ctx line = some c) (e : ScenarioEntry)
    (h : e ∈ c.feature.scenarios) :
    e ∈ ctx.feature.scenarios ∨ examplesOf e = [] := by
  unfold runHandler at hrh
  repeat' split at hrh
  all_goals first
    | exact Option.noConfusion hrh
    | (injection hrh with hrh
       subst hrh
       first
        | exact Or.inl h
        | (rcases List.mem_append.mp h with h | h
           · exact Or.inl h
           · simp at h
             subst h
             exact Or.inr rfl))

theorem processLine_examples_inv (ctx : Ctx) (line : String)
    (hinv : ∀ e ∈ ctx.feature.scenarios, ∀ row ∈ examplesOf e,
      ∃ h c, row = zipRow h c) :
    ∀ e ∈ (processLine ctx line).feature.scenarios, ∀ row ∈ examplesOf e,
      ∃ h c, row = zipRow h c := by
  intro e he row hrow
  by_cases hq : lineStartsWith line "\"\"\"" = true
  · rw [docstring_fence_step ctx line hq] at he
    obtain ⟨e0, he0, hex⟩ := pushStep_examples _ line e he
    exact hinv e0 he0 row (hex ▸ hrow)
  · have hq' : lineStartsWith line "\"\"\"" = false := by simpa using hq
    by_cases hdoc : ctx.inDocString = true
    · rw [indoc_step ctx line hdoc hq'] at he
      obtain ⟨e0, he0, hex⟩ := pushStep_examples _ line e he
      exact hinv e0 he0 row (hex ▸ hrow)
    · have hdoc' : ctx.inDocString = false := by simpa using hdoc
      by_cases htag : lineStartsWith line "@" = true
      · rw [tag_step ctx line hdoc' htag] at he
        exact hinv e he row hrow
      · have htag' : lineStartsWith line "@" = false := by simpa using htag
        rcases ctx with ⟨f, d, tg, m, hh, pt, doc⟩
        have hdoc2 : doc = false := hdoc'
        subst hdoc2
        simp only [processLine, hq', htag', Bool.false_eq_true, if_false] at he
        cases hrh : runHandler ⟨f, d, tg, m, hh, pt, false⟩ line with
        | some c =>
          rw [hrh] at he
          rcases runHandler_examples _ line c hrh e he with h2 | h2
          · exact hinv e h2 row hrow
          · rw [h2] at hrow
            simp at hrow
        | none =>
          rw [hrh] at he
          by_cases hp : lineStartsWith line "|" = true
          · by_cases hhh : hh = []
            · simp only [hp, if_true, hhh, if_pos rfl] at he
              exact hinv e he row hrow
            · simp only [hp, if_true, hhh, if_neg hhh] at he
              cases hgl : f.scenarios.getLast? with
              | none =>
                rw [hgl] at he
                exact hinv e he row hrow
              | some e1 =>
                cases e1 with
                | scenario sc =>
                  rw [hgl] at he
                  exact hinv e he row hrow
                | outline o =>
                  rw [hgl] at he
                  have h' : e ∈ modifyLast
                      (pushExample (zipRow hh (parseTableRow line))) f.scenarios := he
                  rcases mem_modifyLast _ _ _ h' with h2 | ⟨b, hb, rfl⟩
                  · exact hinv e h2 row hrow
                  · rcases examplesOf_pushExample _ b row hrow with h3 | h3
                    · exact hinv b hb row h3
                    · exact ⟨hh, parseTableRow line, h3⟩
          · have hp' : lineStartsWith line "|" = false := by simpa using hp
            by_cases hst : isStepLine line = true
            · simp only [hp', Bool.false_eq_true, if_false, hst, if_true] at he
              obtain ⟨e0, he0, hex⟩ := pushStep_examples _ line e he
              exact hinv e0 he0 row (hex ▸ hrow)
            · have hst' : isStepLine line = false := by simpa using hst
              simp only [hp', hst', Bool.false_eq_true, if_false] at he
              by_cases hdesc : line ≠ "" ∧ m = ParseMode.none
              · rw [if_pos hdesc] at he
                exact hinv e he row hrow
              · rw [if_neg hdesc] at he
                exact hinv e he row hrow

/-- The provenance invariant carried over a whole parse: every example
row of every scenario entry was produced by `zipRow`. -/
theorem foldl_examples_inv (lines : List String) (ctx : Ctx)
    (hinv : ∀ e ∈ ctx.feature.scenarios, ∀ row ∈ examplesOf e,
      ∃ h c, row = zipRow h c) :
    ∀ e ∈ (List.foldl processLine ctx lines).feature.scenarios,
      ∀ row ∈ examplesOf e, ∃ h c, row = zipRow h c := by
  induction lines generalizing ctx with
  | nil => exact hinv
  | cons a as ih =>
    simp only [List.foldl_cons]
    exact ih (processLine ctx a) (processLine_examples_inv ctx a hinv)

/-- C3: a table row processed with a buffered header and an active
outline zips exactly the buffered header with the row's cells, and every
example row of every outline in a parsed feature is such a zip: its keys
are the header's keys (set-equal, in header order, and literally equal to
the header when the header has no duplicates), and every column at an
index at or beyond the data row's cell count reads back as the empty
string. -/
theorem example_rows_zip_headers :
    (∀ ctx line (o : ScenarioOutlineModel), ctx.inDocString = false →
      lineStartsWith line "|" = true → ctx.headers ≠ [] →
      ctx.feature.scenarios.getLast? = some (ScenarioEntry.outline o) →
      processLine ctx line =
        {ctx with feature := {ctx.feature with
          scenarios := modifyLast (pushExample (zipRow ctx.headers (parseTableRow line)))
            ctx.feature.scenarios}}) ∧
    (∀ lines e row, e ∈ (parseFeatureLines lines).scenarios → row ∈ examplesOf e →
      ∃ headers cells, row = zipRow headers cells ∧
        row.map Prod.fst = newKeysFrom [] headers ∧
        (∀ k, k ∈ row.map Prod.fst ↔ k ∈ headers) ∧
        (row.map Prod.fst).Sublist headers ∧
        (headers.Nodup → row.map Prod.fst = headers) ∧
        (∀ i, (hi : i < headers.length) → cells.length ≤ i →
          jsLookup (headers.get ⟨i, hi⟩) row = some "")) := by
  constructor
  · intro ctx line o h1 h2 h3 h4
    exact table_line_append ctx line h1 h2 h3 o h4
  · intro lines e row he hrow
    obtain ⟨headers, cells, rfl⟩ :=
      foldl_examples_inv lines initCtx (by simp [initCtx]) e he row hrow
    obtain ⟨h1, h2, h3, h4, h5⟩ := zipRow_spec headers cells
    exact ⟨headers, cells, rfl, h1, h2, h3, h4, h5⟩

/-- Witness for C3: a concrete outline whose data row is one cell short
of the two headers; the missing trailing column reads back as `""`. -/
theorem example_rows_zip_headers_inst :
    processLine
      {feature :=
         {name := "", description := [], background := Option.none,
          scenarios :=
            [ScenarioEntry.outline {name := "o", steps := [], tags := [], examples := []}]},
       detached := [], target := Target.scenario, mode := ParseMode.outline,
       headers := ["a", "b"], pendingTags := [], inDocString := false} "| 1 |" =
      {feature :=
         {name := "", description := [], background := Option.none,
          scenarios :=
            [ScenarioEntry.outline
              {name := "o", steps := [], tags := [],
               examples := [zipRow ["a", "b"] (parseTableRow "| 1 |")]}]},
       detached := [], target := Target.scenario, mode := ParseMode.outline,
       headers := ["a", "b"], pendingTags := [], inDocString := false} ∧
    (∃ headers cells,
      ([("a", "1"), ("b", "")] : List (String × String)) = zipRow headers cells ∧
      ([("a", "1"), ("b", "")] : List (String × String)).map Prod.fst =
        newKeysFrom [] headers ∧
      (∀ k, k ∈ ([("a", "1"), ("b", "")] : List (String × String)).map Prod.fst ↔
        k ∈ headers) ∧
      (([("a", "1"), ("b", "")] : List (String × String)).map Prod.fst).Sublist headers ∧
      (headers.Nodup →
        ([("a", "1"), ("b", "")] : List (String × String)).map Prod.fst = headers) ∧
      (∀ i, (hi : i < headers.length) → cells.length ≤ i →
        jsLookup (headers.get ⟨i, hi⟩) ([("a", "1"), ("b", "")] : List (String × String)) =
          some "")) := by
  constructor
  · have h := example_rows_zip_headers.1
      {feature :=
         {name := "", description := [], background := Option.none,
          scenarios :=
            [ScenarioEntry.outline {name := "o", steps := [], tags := [], examples := []}]},
       detached := [], target := Target.scenario, mode := ParseMode.outline,
       headers := ["a", "b"], pendingTags := [], inDocString := false} "| 1 |"
      {name := "o", steps := [], tags := [], examples := []} rfl (by decide) (by decide) rfl
    rw [h]
    decide
  · exact example_rows_zip_headers.2
      ["Scenario Outline: o", "Examples:", "| a | b |", "| 1 |"]
      (ScenarioEntry.outline
        {name := "o", steps := [], tags := [], examples := [[("a", "1"), ("b", "")]]})
      [("a", "1"), ("b", "")] (by decide) (by decide)

/-! ## C4: the two specification extraction examples -/

/-- C4: on the first example step the heuristic produces exactly the two
quoted captures under `key1`/`key2` and no numeric keys (the digits of
`secret123` sit inside a word, so `\b` rejects them); on the second it
produces exactly `num1 = 42` and `num2 = 3.5` (here `7 / 2`). -/
theorem extract_variables_examples :
    extractVariablesFromStep
        "Given a user with username \"john_doe\" and password \"secret123\"" =
      [("key1", JValue.str "john_doe"), ("key2", JValue.str "secret123")] ∧
    extractVariablesFromStep "Then the count is 42 and the ratio is 3.5" =
      [("num1", JValue.num 42), ("num2", JValue.num (7 / 2))] := by
  constructor
  · decide
  · have h : (7 : ℚ) / 2 = mkRat 7 2 := by norm_num [Rat.mkRat_eq_div]
    rw [h]
    decide

/-! ## C8: generator totality and the empty feature -/

/-- C8: the generator is a total function of the feature value: every
output begins with the fixed preamble (the group wrapper opened with the
feature's name) and ends with the group wrapper's closing line, and the
entirely empty feature yields exactly the preamble plus the wrapper
immediately closed, with no test cases inside. -/
theorem generator_total_empty_feature :
    generateMochaTests
        {name := "", description := [], background := Option.none, scenarios := []} =
      "const \x7b mocha \x7d = require(\x27mocha\x27);\nconst \x7b expect \x7d = require(\x27chai\x27);\n\ndescribe(\x27Feature: \x27, function () \x7b\n\x7d);" ∧
    (∀ f : FeatureModel, (mochaLines f).take 4 = preludeLines f.name ∧
      (mochaLines f).getLast? = some "\x7d);") := by
  constructor
  · decide
  · intro f
    constructor
    · show (preludeLines f.name ++ _).take 4 = _
      simp [preludeLines]
    · show ((preludeLines f.name ++ backgroundLines f ++
        (f.scenarios.map scenarioBlock).flatten) ++ ["\x7d);"]).getLast? = _
      rw [List.getLast?_concat]

/-! ## Decimal-key machinery shared by C5 and C7 -/

theorem charVal_digit (m : Nat) (h : m < 10) : (Char.ofNat (48 + m)).toNat = 48 + m := by
  revert h
  revert m
  decide

theorem digitsVal_append (l : List Char) (c : Char) :
    digitsVal (l ++ [c]) = 10 * digitsVal l + (c.toNat - 48) := by
  simp [digitsVal, List.foldl_append]

theorem digitsVal_natDigitsAux (fuel : Nat) :
    ∀ n, n < fuel → digitsVal (natDigitsAux fuel n) = n := by
  induction fuel with
  | zero => intro n h; omega
  | succ fuel ih =>
    intro n h
    rw [natDigitsAux]
    by_cases h10 : n < 10
    · rw [if_pos h10]
      show digitsVal [Char.ofNat (48 + n)] = n
      have hc := charVal_digit n h10
      simp [digitsVal, hc]
    · rw [if_neg h10, digitsVal_append, ih (n / 10) (by omega),
        charVal_digit (n % 10) (by omega)]
      omega

theorem natToStr_inj (m n : Nat) (h : natToStr m = natToStr n) : m = n := by
  have h2 := congrArg (fun s : String => digitsVal s.data) h
  simp only [natToStr] at h2
  rwa [digitsVal_natDigitsAux _ m (by omega), digitsVal_natDigitsAux _ n (by omega)] at h2

theorem stringData_inj (a b : String) (h : a.data = b.data) : a = b := by
  cases a
  cases b
  exact congrArg String.mk h

theorem stringAppend_left_cancel (p a b : String) (h : p ++ a = p ++ b) : a = b := by
  have h2 := congrArg String.data h
  rw [String.data_append, String.data_append] at h2
  exact stringData_inj a b (List.append_cancel_left h2)

theorem key_ne_num (a b : String) : "key" ++ a ≠ "num" ++ b := by
  intro h
  have h2 := congrArg String.data h
  rw [String.data_append, String.data_append] at h2
  injection h2 with h3 _
  exact absurd h3 (by decide)

theorem keyIdx_inj (base : String) (i j : Nat)
    (h : base ++ natToStr (i + 1) = base ++ natToStr (j + 1)) : i = j := by
  have := natToStr_inj (i + 1) (j + 1) (stringAppend_left_cancel base _ _ h)
  omega

theorem jsAssign_not_mem {α : Type} (r : List (String × α)) (k : String) (v : α)
    (h : k ∉ r.map Prod.fst) : jsAssign r k v = r ++ [(k, v)] := by
  induction r with
  | nil => rfl
  | cons p r ih =>
    obtain ⟨k', v'⟩ := p
    simp only [List.map_cons, List.mem_cons] at h
    push_neg at h
    rw [jsAssign, if_neg (fun hc => h.1 hc.symm), ih h.2]
    simp

theorem mem_seqPairs_keys (base : String) (vs : List JValue) :
    ∀ (i : Nat) (k : String), k ∈ (seqPairs base i vs).map Prod.fst →
      ∃ j, i < j ∧ k = base ++ natToStr j := by
  induction vs with
  | nil => intro i k h; simp [seqPairs] at h
  | cons v vs ih =>
    intro i k h
    rw [seqPairs] at h
    rcases List.mem_cons.mp h with h | h
    · exact ⟨i + 1, by omega, h⟩
    · obtain ⟨j, hij, hk⟩ := ih (i + 1) k h
      exact ⟨j, by omega, hk⟩

theorem seqPairs_keys_nodup (base : String) (vs : List JValue) :
    ∀ (i : Nat), ((seqPairs base i vs).map Prod.fst).Nodup := by
  induction vs with
  | nil => intro i; simp [seqPairs]
  | cons v vs ih =>
    intro i
    rw [seqPairs]
    simp only [List.map_cons, List.nodup_cons]
    refine ⟨?_, ih (i + 1)⟩
    intro hmem
    obtain ⟨j, hij, hk⟩ := mem_seqPairs_keys base vs (i + 1) _ hmem
    have : i + 1 = j := by
      have := natToStr_inj (i + 1) j (stringAppend_left_cancel base _ _ hk)
      omega
    omega

theorem assignSeq_eq_append (base : String) (vs : List JValue) :
    ∀ (i : Nat) (r : List (String × JValue)),
      (∀ j, i ≤ j → base ++ natToStr (j + 1) ∉ r.map Prod.fst) →
      assignSeq base i vs r = r ++ seqPairs base i vs := by
  induction vs with
  | nil => intro i r _; simp [assignSeq, seqPairs]
  | cons v vs ih =>
    intro i r hfresh
    rw [assignSeq, jsAssign_not_mem r _ v (hfresh i (le_refl i))]
    rw [ih (i + 1) (r ++ [(base ++ natToStr (i + 1), v)]) ?fresh]
    · rw [seqPairs]
      simp
    case fresh =>
      intro j hij hmem
      rw [List.map_append] at hmem
      rcases List.mem_append.mp hmem with hmem | hmem
      · exact hfresh j (by omega) hmem
      · simp only [List.map_cons, List.map_nil, List.mem_singleton] at hmem
        have := keyIdx_inj base j i hmem
        omega

/-- The extraction record is exactly the `key1..keyN` pairs (stripped
quoted matches, in match order) followed by the `num1..numM` pairs
(converted numeric matches, in match order): every generated key is fresh,
so each JS assignment appends. -/
theorem extract_structure (step : String) :
    extractVariablesFromStep step =
      seqPairs "key" 0
        ((qscan Option.none step.data).map
          (fun m => JValue.str ⟨m.filter (fun c => c ≠ '"')⟩)) ++
      seqPairs "num" 0
        ((numScan Option.none step.data).map (fun t => JValue.num (numValue t))) := by
  rw [extractVariablesFromStep,
    assignSeq_eq_append "key" _ 0 [] (by intro j _ h; simp at h), List.nil_append,
    assignSeq_eq_append "num" _ 0 _ ?fresh]
  case fresh =>
    intro j _ hmem
    obtain ⟨j', _, hk⟩ := mem_seqPairs_keys "key" _ 0 _ hmem
    exact key_ne_num _ _ (hk.symm)

/-- All keys of an extraction record are distinct. -/
theorem extract_keys_nodup (step : String) :
    ((extractVariablesFromStep step).map Prod.fst).Nodup := by
  rw [extract_structure, List.map_append]
  refine List.Nodup.append (seqPairs_keys_nodup _ _ 0) (seqPairs_keys_nodup _ _ 0) ?_
  intro k hk1 hk2
  obtain ⟨j1, _, e1⟩ := mem_seqPairs_keys _ _ _ _ hk1
  obtain ⟨j2, _, e2⟩ := mem_seqPairs_keys _ _ _ _ hk2
  exact key_ne_num _ _ (e1.symm.trans e2)

theorem jsLookup_not_mem {α : Type} (r : List (String × α)) (k : String)
    (h : k ∉ r.map Prod.fst) : jsLookup k r = Option.none := by
  induction r with
  | nil => rfl
  | cons p t ih =>
    obtain ⟨k', v'⟩ := p
    simp only [List.map_cons, List.mem_cons] at h
    push_neg at h
    rw [jsLookup, if_neg (fun hc => h.1 hc.symm)]
    exact ih h.2

theorem lookup_foldl_jsAssign (m : List (String × JValue)) :
    ∀ (acc : List (String × JValue)) (k : String), (m.map Prod.fst).Nodup →
      jsLookup k (m.foldl (fun a p => jsAssign a p.1 p.2) acc) =
        (match jsLookup k m with
         | some v => some v
         | Option.none => jsLookup k acc) := by
  induction m with
  | nil => intro acc k _; rfl
  | cons p t ih =>
    obtain ⟨k', v'⟩ := p
    intro acc k hnd
    simp only [List.map_cons, List.nodup_cons] at hnd
    simp only [List.foldl_cons]
    rw [ih _ k hnd.2]
    by_cases hk : k' = k
    · subst hk
      simp [jsLookup, jsLookup_not_mem t k' hnd.1, jsLookup_jsAssign_self]
    · simp only [jsLookup, if_neg hk]
      cases jsLookup k t with
      | some v => rfl
      | none => exact jsLookup_jsAssign_ne acc k k' v' hk

theorem lookup_foldl_merge (maps : List (List (String × JValue))) :
    ∀ (acc : List (String × JValue)) (k : String),
      (∀ m ∈ maps, (m.map Prod.fst).Nodup) →
      jsLookup k
          (maps.foldl (fun a m => m.foldl (fun a2 p => jsAssign a2 p.1 p.2) a) acc) =
        maps.foldl
          (fun a m =>
            match jsLookup k m with
            | some v => some v
            | Option.none => a)
          (jsLookup k acc) := by
  induction maps with
  | nil => intro acc k _; rfl
  | cons m ms ih =>
    intro acc k hnd
    simp only [List.foldl_cons]
    rw [ih _ k (fun m' hm' => hnd m' (by simp [hm']))]
    rw [lookup_foldl_jsAssign m acc k (hnd m (by simp))]

/-- Reading a key back from the merged record yields the value the last
map containing the key gave it: later steps win on collisions. -/
theorem jsLookup_mergeAll (maps : List (List (String × JValue))) (k : String)
    (hnd : ∀ m ∈ maps, (m.map Prod.fst).Nodup) :
    jsLookup k (mergeAll maps) = lastHit k maps := by
  rw [mergeAll, lastHit, lookup_foldl_merge maps [] k hnd]
  rfl

/-! ## C7: background test case generation -/

/-- C7: when the feature has a background with at least one step, the
generator emits exactly one background test case, titled with the literal
text of the first background step after `Background: `, containing every
background step as a comment line in order, and whose `data` value is the
shallow merge of the steps' extracted-variables records in step order —
reading any key back from the merge yields the value given by the last
step whose record contains it. When the background is absent or has no
steps, no background test case is emitted. -/
theorem background_test_generation (f : FeatureModel) :
    (∀ bg s0 rest, f.background = some bg → bg.steps = s0 :: rest →
      mochaLines f =
        preludeLines f.name ++
        (["  it(\x27Background: " ++ s0 ++ "\x27, async () => \x7b"]
          ++ (s0 :: rest).map commentLine
          ++ ["",
              "    const data = " ++ jsonStringifyJ
                (mergeAll ((s0 :: rest).map extractVariablesFromStep)) ++ ";",
              "  \x7d);", ""]) ++
        (f.scenarios.map scenarioBlock).flatten ++ ["\x7d);"] ∧
      (∀ k, jsLookup k (mergeAll ((s0 :: rest).map extractVariablesFromStep)) =
        lastHit k ((s0 :: rest).map extractVariablesFromStep))) ∧
    ((f.background = Option.none ∨ ∃ bg, f.background = some bg ∧ bg.steps = []) →
      mochaLines f =
        preludeLines f.name ++ (f.scenarios.map scenarioBlock).flatten ++ ["\x7d);"]) := by
  constructor
  · intro bg s0 rest hbg hsteps
    constructor
    · rw [mochaLines]
      simp only [backgroundLines, hbg, hsteps]
    · intro k
      refine jsLookup_mergeAll _ k ?_
      intro m hm
      obtain ⟨s, _, rfl⟩ := List.mem_map.mp hm
      exact extract_keys_nodup s
  · intro hcase
    rw [mochaLines]
    rcases hcase with hbg | ⟨bg, hbg, hsteps⟩
    · simp only [backgroundLines, hbg, List.append_nil]
    · simp only [backgroundLines, hbg, hsteps, List.append_nil]

/-- Witness for C7: a feature with a two-step background yields exactly
one background test case with both steps as comments and the merged data
record, while a feature without a background yields none. -/
theorem background_test_generation_inst :
    (mochaLines
        {name := "F", description := [],
         background := some {steps := ["Given a \"u\"", "Then 7"]}, scenarios := []} =
      preludeLines
        ({name := "F", description := [],
          background := some {steps := ["Given a \"u\"", "Then 7"]},
          scenarios := []} : FeatureModel).name ++
      (["  it(\x27Background: " ++ "Given a \"u\"" ++ "\x27, async () => \x7b"]
        ++ (("Given a \"u\"") :: ["Then 7"]).map commentLine
        ++ ["",
            "    const data = " ++ jsonStringifyJ
              (mergeAll ((("Given a \"u\"") :: ["Then 7"]).map extractVariablesFromStep)) ++ ";",
            "  \x7d);", ""]) ++
      ((([] : List ScenarioEntry)).map scenarioBlock).flatten ++ ["\x7d);"] ∧
     (∀ k, jsLookup k
          (mergeAll ((("Given a \"u\"") :: ["Then 7"]).map extractVariablesFromStep)) =
        lastHit k ((("Given a \"u\"") :: ["Then 7"]).map extractVariablesFromStep))) ∧
    mochaLines
        {name := "G", description := [], background := Option.none, scenarios := []} =
      preludeLines
        ({name := "G", description := [], background := Option.none,
          scenarios := []} : FeatureModel).name ++
      ((([] : List ScenarioEntry)).map scenarioBlock).flatten ++ ["\x7d);"] :=
  ⟨(background_test_generation
      {name := "F", description := [],
       background := some {steps := ["Given a \"u\"", "Then 7"]}, scenarios := []}).1
      {steps := ["Given a \"u\"", "Then 7"]} "Given a \"u\"" ["Then 7"] rfl rfl,
   (background_test_generation
      {name := "G", description := [], background := Option.none, scenarios := []}).2
      (Or.inl rfl)⟩

/-! ## C5: quoted-substring capture -/

/-- Every match the quote scanner emits is a quote, a nonempty quote-free
content, and a quote. -/
theorem qscan_shape (s : List Char) :
    ∀ st, (st = Option.none ∨ ∃ acc, st = some acc ∧ ∀ c ∈ acc, c ≠ '"') →
      ∀ m ∈ qscan st s, ∃ content, m = '"' :: (content ++ ['"']) ∧ content ≠ [] ∧
        ∀ c ∈ content, c ≠ '"' := by
  induction s with
  | nil =>
    intro st _ m hm
    simp [qscan] at hm
  | cons c rest ih =>
    intro st hst m hm
    rcases hst with rfl | ⟨acc, rfl, hacc⟩
    · simp only [qscan] at hm
      by_cases hc : c = '"'
      · rw [if_pos hc] at hm
        exact ih (some []) (Or.inr ⟨[], rfl, by simp⟩) m hm
      · rw [if_neg hc] at hm
        exact ih Option.none (Or.inl rfl) m hm
    · simp only [qscan] at hm
      by_cases hc : c = '"'
      · rw [if_pos hc] at hm
        by_cases ha : acc = []
        · rw [if_pos ha] at hm
          exact ih (some []) (Or.inr ⟨[], rfl, by simp⟩) m hm
        · rw [if_neg ha] at hm
          rcases List.mem_cons.mp hm with rfl | hm
          · refine ⟨acc.reverse, rfl, by simpa using ha, ?_⟩
            intro c2 hc2
            exact hacc c2 (List.mem_reverse.mp hc2)
          · exact ih Option.none (Or.inl rfl) m hm
      · rw [if_neg hc] at hm
        refine ih (some (c :: acc)) (Or.inr ⟨c :: acc, rfl, ?_⟩) m hm
        intro c2 hc2
        rcases List.mem_cons.mp hc2 with rfl | hc2
        · exact hc
        · exact hacc c2 hc2

/-- The concatenation of the matches is a sublist of the scanned text
(matches are disjoint and occur left to right). -/
theorem qscan_join_sublist (s : List Char) :
    ∀ acc, ((qscan (some acc) s).flatten.Sublist ('"' :: (acc.reverse ++ s))) ∧
      ((qscan Option.none s).flatten.Sublist s) := by
  induction s with
  | nil => intro acc; constructor <;> simp [qscan]
  | cons c rest ih =>
    intro acc
    constructor
    · simp only [qscan]
      by_cases hc : c = '"'
      · subst hc
        rw [if_pos rfl]
        by_cases ha : acc = []
        · subst ha
          rw [if_pos rfl]
          have h2 := (ih []).1
          simp only [List.reverse_nil, List.nil_append] at h2
          exact h2.trans ((List.sublist_cons_self '"' rest).cons₂ '"')
        · rw [if_neg ha]
          simp only [List.flatten_cons]
          have h2 := (ih []).2
          have he : '"' :: (acc.reverse ++ '"' :: rest) =
              ('"' :: acc.reverse ++ ['"']) ++ rest := by simp
          rw [he]
          exact List.Sublist.append (List.Sublist.refl _) h2
      · rw [if_neg hc]
        have h2 := (ih (c :: acc)).1
        have he : '"' :: ((c :: acc).reverse ++ rest) =
            '"' :: (acc.reverse ++ c :: rest) := by simp
        rw [he] at h2
        exact h2
    · simp only [qscan]
      by_cases hc : c = '"'
      · subst hc
        rw [if_pos rfl]
        have h2 := (ih []).1
        simpa using h2
      · rw [if_neg hc]
        exact (ih acc).2.trans (List.sublist_cons_self c rest)

/-- Every match is a contiguous substring of the scanned text. -/
theorem qscan_contiguous (s : List Char) :
    ∀ acc m, (m ∈ qscan (some acc) s → ∃ u v, '"' :: (acc.reverse ++ s) = u ++ m ++ v) ∧
      (m ∈ qscan Option.none s → ∃ u v, s = u ++ m ++ v) := by
  induction s with
  | nil =>
    intro acc m
    constructor <;> (intro hm; simp [qscan] at hm)
  | cons c rest ih =>
    intro acc m
    constructor
    · intro hm
      simp only [qscan] at hm
      by_cases hc : c = '"'
      · subst hc
        rw [if_pos rfl] at hm
        by_cases ha : acc = []
        · subst ha
          rw [if_pos rfl] at hm
          obtain ⟨u, v, huv⟩ := (ih [] m).1 hm
          simp only [List.reverse_nil, List.nil_append] at huv
          refine ⟨'"' :: u, v, ?_⟩
          simp only [List.reverse_nil, List.nil_append]
          rw [show ('"' :: u ++ m ++ v) = '"' :: (u ++ m ++ v) by simp, ← huv]
        · rw [if_neg ha] at hm
          rcases List.mem_cons.mp hm with rfl | hm
          · exact ⟨[], rest, by simp⟩
          · obtain ⟨u, v, huv⟩ := (ih [] m).2 hm
            refine ⟨'"' :: acc.reverse ++ '"' :: u, v, ?_⟩
            rw [huv]
            simp
      · rw [if_neg hc] at hm
        obtain ⟨u, v, huv⟩ := (ih (c :: acc) m).1 hm
        refine ⟨u, v, ?_⟩
        rw [← huv]
        simp
    · intro hm
      simp only [qscan] at hm
      by_cases hc : c = '"'
      · subst hc
        rw [if_pos rfl] at hm
        obtain ⟨u, v, huv⟩ := (ih [] m).1 hm
        simp only [List.reverse_nil, List.nil_append] at huv
        exact ⟨u, v, huv⟩
      · rw [if_neg hc] at hm
        obtain ⟨u, v, huv⟩ := (ih acc m).2 hm
        exact ⟨c :: u, v, by rw [huv]; simp⟩

/-- Once a quote is open and a quote-free nonempty stretch (or a nonempty
accumulator) reaches a closing quote, the scan emits at least one match. -/
theorem qscan_complete_open (content : List Char) (v : List Char) :
    ∀ acc, (∀ c ∈ content, c ≠ '"') → (content ≠ [] ∨ acc ≠ []) →
      qscan (some acc) (content ++ '"' :: v) ≠ [] := by
  induction content with
  | nil =>
    intro acc _ hne
    rcases hne with h | h
    · exact absurd rfl h
    · simp [qscan, h]
  | cons c cs ih =>
    intro acc hq hne
    have hc : c ≠ '"' := hq c (by simp)
    simp only [List.cons_append, qscan, if_neg hc]
    exact ih (c :: acc) (fun x hx => hq x (by simp [hx])) (Or.inr (by simp))

/-- If the text contains a well-formed nonempty quoted substring, the
scan finds at least one match (from any scanner state). -/
theorem qscan_complete (u content v : List Char)
    (hne : content ≠ []) (hq : ∀ c ∈ content, c ≠ '"') :
    ∀ st, (st = Option.none ∨ ∃ acc, st = some acc) →
      qscan st (u ++ '"' :: content ++ '"' :: v) ≠ [] := by
  induction u with
  | nil =>
    intro st hst
    rcases hst with rfl | ⟨acc, rfl⟩
    · simp only [List.nil_append, qscan, if_pos rfl]
      exact qscan_complete_open content v [] hq (Or.inl hne)
    · simp only [List.nil_append, qscan, if_pos rfl]
      by_cases ha : acc = []
      · rw [if_pos ha]
        exact qscan_complete_open content v [] hq (Or.inl hne)
      · rw [if_neg ha]
        simp
  | cons c cs ih =>
    intro st hst
    rcases hst with rfl | ⟨acc, rfl⟩
    · simp only [List.cons_append, qscan]
      by_cases hc : c = '"'
      · rw [if_pos hc]
        exact ih (some []) (Or.inr ⟨[], rfl⟩)
      · rw [if_neg hc]
        exact ih Option.none (Or.inl rfl)
    · simp only [List.cons_append, qscan]
      by_cases hc : c = '"'
      · rw [if_pos hc]
        by_cases ha : acc = []
        · rw [if_pos ha]
          exact ih (some []) (Or.inr ⟨[], rfl⟩)
        · rw [if_neg ha]
          simp
      · rw [if_neg hc]
        exact ih (some (c :: acc)) (Or.inr ⟨_, rfl⟩)

/-- C5 counterexample: an empty pair of quotes is NOT captured — the
regex `/"([^"]+)"/g` requires at least one inner character, so
`extractVariablesFromStep "Given a \"\" b"` has no `key1` entry at all,
while the claim demands `key1 = ""`. -/
theorem empty_quotes_not_captured_cex :
    extractVariablesFromStep "Given a \"\" b" = [] ∧
    jsLookup "key1" (extractVariablesFromStep "Given a \"\" b") = Option.none := by
  decide

/-- C5 (amended): the extraction captures every NON-empty double-quoted
substring of the step — an immediately adjacent pair of quotes does not
match, and its second quote can instead open a later match — in
left-to-right order, storing the n-th match (1-indexed) under key
`"key" + n` with the quotes stripped: the extraction record is exactly
the keyed captures followed by the keyed numerals; every capture is a
quote, nonempty quote-free content, and a quote, contiguous in the step;
the captures are disjoint and in order (their concatenation is a sublist
of the step); and whenever the step contains any well-formed nonempty
quoted substring at least one capture is produced. -/
theorem quoted_capture_characterization (step : String) :
    extractVariablesFromStep step =
      seqPairs "key" 0
        ((qscan Option.none step.data).map
          (fun m => JValue.str ⟨m.filter (fun c => c ≠ '"')⟩)) ++
      seqPairs "num" 0
        ((numScan Option.none step.data).map (fun t => JValue.num (numValue t))) ∧
    (∀ m ∈ qscan Option.none step.data, ∃ content, m = '"' :: (content ++ ['"']) ∧
      content ≠ [] ∧ (∀ c ∈ content, c ≠ '"') ∧
      m.filter (fun c => c ≠ '"') = content) ∧
    ((qscan Option.none step.data).flatten.Sublist step.data) ∧
    (∀ m ∈ qscan Option.none step.data, ∃ u v, step.data = u ++ m ++ v) ∧
    (∀ u content v, step.data = u ++ '"' :: content ++ '"' :: v → content ≠ [] →
      (∀ c ∈ content, c ≠ '"') → qscan Option.none step.data ≠ []) := by
  refine ⟨extract_structure step, ?_, ?_, ?_, ?_⟩
  · intro m hm
    obtain ⟨content, rfl, hne, hq⟩ := qscan_shape step.data Option.none (Or.inl rfl) m hm
    refine ⟨content, rfl, hne, hq, ?_⟩
    have hfil : content.filter (fun c => c ≠ '"') = content :=
      List.filter_eq_self.mpr (fun c hc => by simpa using hq c hc)
    simp only [List.filter_cons, List.filter_append, hfil]
    simp [hq]
  · exact (qscan_join_sublist step.data []).2
  · intro m hm
    exact (qscan_contiguous step.data [] m).2 hm
  · intro u content v hdec hne hq
    rw [hdec]
    exact qscan_complete u content v hne hq Option.none (Or.inl rfl)

/-- Witness for C5 (amended) on the concrete step `say "hi"`. -/
theorem quoted_capture_characterization_inst :
    (∃ content, (['"', 'h', 'i', '"'] : List Char) = '"' :: (content ++ ['"']) ∧
      content ≠ [] ∧ (∀ c ∈ content, c ≠ '"') ∧
      (['"', 'h', 'i', '"'] : List Char).filter (fun c => c ≠ '"') = content) ∧
    ((qscan Option.none ("say \"hi\"".data)).flatten.Sublist ("say \"hi\"".data)) ∧
    (∃ u v, "say \"hi\"".data = u ++ ['"', 'h', 'i', '"'] ++ v) ∧
    (qscan Option.none ("say \"hi\"".data) ≠ []) :=
  ⟨(quoted_capture_characterization "say \"hi\"").2.1 ['"', 'h', 'i', '"'] (by decide),
   (quoted_capture_characterization "say \"hi\"").2.2.1,
   (quoted_capture_characterization "say \"hi\"").2.2.2.1 ['"', 'h', 'i', '"'] (by decide),
   (quoted_capture_characterization "say \"hi\"").2.2.2.2 ['s', 'a', 'y', ' '] ['h', 'i'] []
     (by decide) (by decide) (by decide)⟩
